import Mathlib

/-!
Verification of the two algorithmic engines of the `tom-cruise` automation
client, embedded shallowly in Lean:

* the human-typing model (`skills/human_typer`): keystroke-timing simulation,
  QWERTY typo substitution, and the CDP live-dispatch variant;
* the video attention-check solver (`skills/video_solver`): frame analysis,
  frame deduplication, concurrent digit classification with majority-vote
  cross-validation, and repeating-sequence detection.

Python floats are modelled as rationals (`ℚ`); grayscale pixel bytes as `Nat`;
the standard-library random source is modelled as explicit streams of draws
(`Rng`), consumed sequentially exactly where the Python code calls
`random.random()`, `random.choice(...)`, or `sample_iki(...)`; fallible
external calls are modelled with `Except`.
-/

namespace TomCruise

/-! ## Sequence detector (`skills/video_solver/__init__.py`)

`detect_repeating_sequence` iterates candidate lengths `1 .. n // 2`; for each
it scans chunk start indices `length, 2·length, ...` (Python
`range(length, n, length)`), and rejects the candidate only when a chunk has
the full candidate length and differs from the candidate (`if len(chunk) ==
length and chunk != candidate`).  The first surviving candidate is returned;
otherwise the input itself. -/

/-- Python `digits[i : i + length]` on the character list. -/
def chunkAt (s : List Char) (i len : Nat) : List Char :=
  (s.drop i).take len

/-- The start indices visited by `range(length, n, length)`: the positive
multiples of `length` below `n`. -/
def chunkStarts (n len : Nat) : List Nat :=
  (List.range n).filter (fun i => len ≤ i && i % len == 0)

/-- The inner loop of `detect_repeating_sequence`: the candidate of length
`len` survives when no full-length chunk differs from it. -/
def chunkMatches (s : List Char) (len : Nat) : Bool :=
  (chunkStarts s.length len).all
    (fun i => (chunkAt s i len).length ≠ len || chunkAt s i len = s.take len)

/-- `detect_repeating_sequence` from `skills/video_solver/__init__.py`. -/
def detect_repeating_sequence (digits : String) : String :=
  let s := digits.data
  match (List.range' 1 (s.length / 2)).find? (fun len => chunkMatches s len) with
  | some len => String.mk (s.take len)
  | none => digits

/-- The chunk-verification rule as the specification words it: every
subsequent chunk must equal the candidate truncated to the chunk's actual
length (so a short final chunk must be a prefix of the candidate). -/
def specChunkMatches (s : List Char) (len : Nat) : Bool :=
  (chunkStarts s.length len).all
    (fun i => chunkAt s i len = (s.take len).take (chunkAt s i len).length)

/-- `detect_repeating_sequence` as the specification describes it: the answer
is the candidate for the first length whose every chunk matches up to
truncation. -/
def specDetectRepeating (digits : String) : String :=
  let s := digits.data
  match (List.range' 1 (s.length / 2)).find? (fun len => specChunkMatches s len) with
  | some len => String.mk (s.take len)
  | none => digits

/-! ## Human typer (`skills/human_typer`)

Randomness model: the Python module draws from the process-global random
source via `random.random()` (uniform draws in `[0,1)`), `random.choice`
(uniform element selection), and `sample_iki` (a log-normal variate built
from two uniform draws by Box-Muller).  We model the source as explicit
streams: `unif n` is the n-th `random.random()` result, `iki n` the n-th
`sample_iki` result (its transcendental internals are irrelevant to every
property below, which holds for arbitrary stream values), and `pick n` the
n-th `random.choice` selection, taken modulo the list length so that every
element is selectable.  A `RngState` of per-stream counters is threaded
through the computation in the order the Python code consumes draws. -/

/-- Streams standing for the global random source. -/
structure Rng where
  unif : Nat → ℚ
  iki : Nat → ℚ
  pick : Nat → Nat

/-- Counters recording how many draws of each stream have been consumed. -/
structure RngState where
  nUnif : Nat
  nIki : Nat
  nPick : Nat
  deriving DecidableEq, Repr

def RngState.initial : RngState := ⟨0, 0, 0⟩

def takeUnif (r : Rng) (s : RngState) : ℚ × RngState :=
  (r.unif s.nUnif, { s with nUnif := s.nUnif + 1 })

def takeIki (r : Rng) (s : RngState) : ℚ × RngState :=
  (r.iki s.nIki, { s with nIki := s.nIki + 1 })

def takePick (r : Rng) (s : RngState) : Nat × RngState :=
  (r.pick s.nPick, { s with nPick := s.nPick + 1 })

/-- `QWERTY_NEIGHBORS` from `skills/human_typer/distributions.py`, entries in
source order (dict insertion order). -/
def QWERTY_NEIGHBORS : List (Char × List Char) :=
  [ ('1', ['2', 'q']),
    ('2', ['1', '3', 'q', 'w']),
    ('3', ['2', '4', 'w', 'e']),
    ('4', ['3', '5', 'e', 'r']),
    ('5', ['4', '6', 'r', 't']),
    ('6', ['5', '7', 't', 'y']),
    ('7', ['6', '8', 'y', 'u']),
    ('8', ['7', '9', 'u', 'i']),
    ('9', ['8', '0', 'i', 'o']),
    ('0', ['9', '-', 'o', 'p']),
    ('q', ['1', '2', 'w', 'a']),
    ('w', ['2', '3', 'q', 'e', 'a', 's']),
    ('e', ['3', '4', 'w', 'r', 's', 'd']),
    ('r', ['4', '5', 'e', 't', 'd', 'f']),
    ('t', ['5', '6', 'r', 'y', 'f', 'g']),
    ('y', ['6', '7', 't', 'u', 'g', 'h']),
    ('u', ['7', '8', 'y', 'i', 'h', 'j']),
    ('i', ['8', '9', 'u', 'o', 'j', 'k']),
    ('o', ['9', '0', 'i', 'p', 'k', 'l']),
    ('p', ['0', '-', 'o', '[', 'l', ';']),
    ('a', ['q', 'w', 's', 'z']),
    ('s', ['w', 'e', 'a', 'd', 'z', 'x']),
    ('d', ['e', 'r', 's', 'f', 'x', 'c']),
    ('f', ['r', 't', 'd', 'g', 'c', 'v']),
    ('g', ['t', 'y', 'f', 'h', 'v', 'b']),
    ('h', ['y', 'u', 'g', 'j', 'b', 'n']),
    ('j', ['u', 'i', 'h', 'k', 'n', 'm']),
    ('k', ['i', 'o', 'j', 'l', 'm', ',']),
    ('l', ['o', 'p', 'k', ';', ',', '.']),
    (';', ['p', '[', 'l', '\'', '.', '/']),
    ('z', ['a', 's', 'x']),
    ('x', ['s', 'd', 'z', 'c']),
    ('c', ['d', 'f', 'x', 'v']),
    ('v', ['f', 'g', 'c', 'b']),
    ('b', ['g', 'h', 'v', 'n']),
    ('n', ['h', 'j', 'b', 'm']),
    ('m', ['j', 'k', 'n', ',']),
    (',', ['k', 'l', 'm', '.']),
    ('.', ['l', ';', ',', '/']),
    ('/', [';', '\'', '.']),
    (' ', []) ]

/-- `QWERTY_NEIGHBORS.get(lower)`: dictionary lookup. -/
def qwertyNeighbors (c : Char) : Option (List Char) :=
  (QWERTY_NEIGHBORS.find? (fun p => p.1 = c)).map (·.2)

/-- The lowercase alphabet used by `nearby_key`'s fallback. -/
def LETTERS : List Char :=
  ['a','b','c','d','e','f','g','h','i','j','k','l','m',
   'n','o','p','q','r','s','t','u','v','w','x','y','z']

/-- The value returned by `nearby_key(key)` when the `random.choice` call
selects index `n` (modulo the candidate-list length). -/
def nearby_choice (key : Char) (n : Nat) : Char :=
  let lower := key.toLower
  match qwertyNeighbors lower with
  | some neighbors =>
    if neighbors.length > 0 then
      let picked := neighbors.getD (n % neighbors.length) 'a'
      if key ≠ key.toLower then picked.toUpper else picked
    else
      let picked := LETTERS.getD (n % LETTERS.length) 'a'
      if key ≠ key.toLower then picked.toUpper else picked
  | none =>
      let picked := LETTERS.getD (n % LETTERS.length) 'a'
      if key ≠ key.toLower then picked.toUpper else picked

/-- `nearby_key` from `distributions.py`, consuming one `random.choice`
selection from the stream. -/
def nearby_key (key : Char) (r : Rng) (s : RngState) : Char × RngState :=
  let (n, s') := takePick r s
  (nearby_choice key n, s')

/-- `HumanTyperConfig` from `skills/human_typer/typer.py`: a plain
`@dataclass` (not frozen) whose generated constructor stores the given
values without any validation. -/
structure HumanTyperConfig where
  average_wpm : ℚ := 70
  wpm_std_dev : ℚ := 17.5
  typo_rate : ℚ := 0.01
  typo_correction_rate : ℚ := 0.96
  word_boundary_pause_ms : ℚ := 300
  sentence_boundary_pause_ms : ℚ := 800
  long_pause_chance : ℚ := 0.05
  long_pause_max_ms : ℚ := 2000
  deriving DecidableEq, Repr

/-- The validity envelope the specification asserts is enforced at
construction (§3/§7): positive WPM, nonnegative deviation, rates in `[0,1]`. -/
def specConfigValid (c : HumanTyperConfig) : Prop :=
  0 < c.average_wpm ∧ 0 ≤ c.wpm_std_dev ∧
  0 ≤ c.typo_rate ∧ c.typo_rate ≤ 1 ∧
  0 ≤ c.typo_correction_rate ∧ c.typo_correction_rate ≤ 1 ∧
  0 ≤ c.long_pause_chance ∧ c.long_pause_chance ≤ 1

/-- `KeystrokeEvent` from `typer.py`. -/
structure KeystrokeEvent where
  key : String
  time : ℚ
  is_typo : Bool := false
  is_correction : Bool := false
  deriving DecidableEq, Repr

def SENTENCE_ENDINGS : List Char := ['.', '!', '?']

def WORD_BOUNDARIES : List Char := [' ', '\t', '\n']

/-- `compute_delay` from `typer.py`: one IKI sample, an optional boundary
pause (sentence-boundary takes precedence over word-boundary), an optional
long pause, clamped below at 10 ms. -/
def compute_delay (char : Char) (prev_char : Option Char)
    (config : HumanTyperConfig) (r : Rng) (s : RngState) : ℚ × RngState :=
  let (ik, s1) := takeIki r s
  let (delay, s2) :=
    if (match prev_char with
        | some p => decide (p ∈ SENTENCE_ENDINGS)
        | none => false) && decide (char ∈ WORD_BOUNDARIES) then
      let (u, s') := takeUnif r s1
      (ik + config.sentence_boundary_pause_ms * (0.5 + u), s')
    else if char ∈ WORD_BOUNDARIES then
      let (u, s') := takeUnif r s1
      (ik + config.word_boundary_pause_ms * (0.3 + u * 0.7), s')
    else (ik, s1)
  let (uRoll, s3) := takeUnif r s2
  let (delay2, s4) :=
    if uRoll < config.long_pause_chance then
      let (uAmt, s') := takeUnif r s3
      (delay + uAmt * config.long_pause_max_ms, s')
    else (delay, s3)
  (max delay2 10, s4)

/-- One iteration of the `simulate_typing` character loop: the events
appended for this character, plus the advanced clock and random state. -/
def typeCharStep (cfg : HumanTyperConfig) (r : Rng) (c : Char)
    (prev : Option Char) (t : ℚ) (s : RngState) :
    List KeystrokeEvent × ℚ × RngState :=
  let (delay, s1) := compute_delay c prev cfg r s
  let t1 := t + delay
  let (uT, s2) := takeUnif r s1
  if uT < cfg.typo_rate then
    let (wrong, s3) := nearby_key c r s2
    let (uC, s4) := takeUnif r s3
    if uC < cfg.typo_correction_rate then
      let (u1, s5) := takeUnif r s4
      let t2 := t1 + (200 + u1 * 300)
      let (u2, s6) := takeUnif r s5
      let t3 := t2 + (100 + u2 * 100)
      ([⟨String.singleton wrong, t1, true, false⟩,
        ⟨"Backspace", t2, false, true⟩,
        ⟨String.singleton c, t3, false, false⟩], t3, s6)
    else
      ([⟨String.singleton wrong, t1, true, false⟩], t1, s4)
  else
    ([⟨String.singleton c, t1, false, false⟩], t1, s2)

/-- The character loop of `simulate_typing`, threading the previous
character, the synthetic clock, and the random-state counters. -/
def simulate_typing_aux (cfg : HumanTyperConfig) (r : Rng) :
    List Char → Option Char → ℚ → RngState → List KeystrokeEvent
  | [], _, _, _ => []
  | c :: rest, prev, t, s =>
    match typeCharStep cfg r c prev t s with
    | (blk, t', s') => blk ++ simulate_typing_aux cfg r rest (some c) t' s'

/-- `simulate_typing` from `typer.py`; `t0` stands for the wall-clock start
`time.time() * 1000`. -/
def simulate_typing (text : String) (config : Option HumanTyperConfig)
    (r : Rng) (t0 : ℚ) : List KeystrokeEvent :=
  let cfg := config.getD {}
  simulate_typing_aux cfg r text.data none t0 RngState.initial

/-- One CDP `Input.dispatchKeyEvent` call: its type, key, and optional
literal text payload. -/
structure DispatchEvent where
  type : String
  key : String
  text : Option String
  deriving DecidableEq, Repr

/-- `_dispatch_char`: paired key-down (with text payload) and key-up. -/
def dispatch_char (c : String) : List DispatchEvent :=
  [⟨"keyDown", c, some c⟩, ⟨"keyUp", c, none⟩]

/-- `_dispatch_key`: paired key-down/key-up with only a key name. -/
def dispatch_key (k : String) : List DispatchEvent :=
  [⟨"keyDown", k, none⟩, ⟨"keyUp", k, none⟩]

/-- One iteration of the `human_type_cdp` character loop from `typer.py`.
The sleeps do not appear in the dispatched trace but each consumes the
uniform draw the Python code takes for it; `sample_iki` consumes one IKI
sample (its `wpm_std_dev` is fixed to `average_wpm * 0.25` in the source and
does not influence the trace shape).  On a typo roll the source always
dispatches wrong key, Backspace, and then the intended character — there is
no correction-rate roll in this variant. -/
def cdpCharStep (r : Rng) (typo_rate : ℚ) (c : Char) (prev : Option Char)
    (s : RngState) : List DispatchEvent × RngState :=
  let s1 := (takeIki r s).2
  let s2 := if c = ' ' then (takeUnif r s1).2 else s1
  let s3 :=
    if (match prev with
        | some p => decide (p ∈ SENTENCE_ENDINGS)
        | none => false) && decide (c = ' ') then
      (takeUnif r s2).2
    else s2
  let (uT, s4) := takeUnif r s3
  if uT < typo_rate then
    let (wrong, s5) := nearby_key c r s4
    let s6 := (takeUnif r s5).2
    let s7 := (takeUnif r s6).2
    (dispatch_char (String.singleton wrong) ++ dispatch_key "Backspace" ++
      dispatch_char (String.singleton c), s7)
  else
    (dispatch_char (String.singleton c), s4)

/-- The character loop of `human_type_cdp`. -/
def human_type_cdp_aux (r : Rng) (typo_rate : ℚ) :
    List Char → Option Char → RngState → List DispatchEvent
  | [], _, _ => []
  | c :: rest, prev, s =>
    match cdpCharStep r typo_rate c prev s with
    | (evs, s') => evs ++ human_type_cdp_aux r typo_rate rest (some c) s'

/-- `human_type_cdp` from `typer.py` (the trace of dispatched key events). -/
def human_type_cdp (r : Rng) (text : String) (typo_rate : ℚ) :
    List DispatchEvent :=
  human_type_cdp_aux r typo_rate text.data none RngState.initial

/-! ## Digit aggregation (`skills/video_solver/read_digits.py`)

The external vision capability is modelled per frame as an
`Except Unit ClassifyResponse`: `.error ()` stands for the API call raising
(error or timeout) and `.ok` carries the first content block of the reply.
`read_digit_from_frame` has no exception handler, so an error propagates;
`read_digits_from_frames` runs the calls under `asyncio.gather` (without
`return_exceptions`), so the first raised exception aborts the whole batch —
modelled by `mapM` over `Except`. -/

/-- The first content block of a classification reply: whether it is a text
block, and its text. -/
structure ClassifyResponse where
  blockIsText : Bool
  blockText : String
  deriving DecidableEq, Repr

/-- Python `str.strip()`: drop whitespace from both ends. -/
def pyStrip (s : String) : String :=
  String.mk
    (((s.data.dropWhile Char.isWhitespace).reverse.dropWhile
      Char.isWhitespace).reverse)

/-- The response post-processing of `read_digit_from_frame`: strip the text
(empty for a non-text block), return the first decimal digit found in it,
or the stripped text itself when it contains no digit. -/
def extract_digit_text (resp : ClassifyResponse) : String :=
  let text := if resp.blockIsText then pyStrip resp.blockText else ""
  match text.data.find? (fun ch => ch.isDigit) with
  | some ch => String.singleton ch
  | none => text

/-- `read_digit_from_frame`: a raised API error is not caught. -/
def read_digit_from_frame (response : Except Unit ClassifyResponse) :
    Except Unit String :=
  match response with
  | .error e => .error e
  | .ok resp => .ok (extract_digit_text resp)

/-- The `asyncio.gather` over per-frame classifications: all per-frame
results in order, unless some call raises — then the first raised exception
propagates and no result list is produced. -/
def read_digit_results : List (Except Unit ClassifyResponse) →
    Except Unit (List String)
  | [] => .ok []
  | r :: rest =>
    match read_digit_from_frame r with
    | .error e => .error e
    | .ok s =>
      match read_digit_results rest with
      | .error e => .error e
      | .ok l => .ok (s :: l)

/-- `read_digits_from_frames`: classify every frame and concatenate the
per-frame results in order (`"".join(results)`); any raised per-frame
exception aborts the batch. -/
def read_digits_from_frames (responses : List (Except Unit ClassifyResponse)) :
    Except Unit String :=
  (read_digit_results responses).map String.join

/-- Python `all_digits[i : i + L]` chunking by the comprehension over
`range(0, len, L)`: the slice at each start index `0, L, 2L, ...` below
`len`, so `⌈len / L⌉` chunks.  For `L = 0` the Python `range` raises
`ValueError`; that case is unreachable for a genuine cycle length and is
mapped to `[]`. -/
def chunkEvery (s : List Char) (L : Nat) : List (List Char) :=
  match L with
  | 0 => []
  | L + 1 =>
      (List.range' 0 ((s.length + L) / (L + 1)) (L + 1)).map
        (fun i => (s.drop i).take (L + 1))

/-- `votes[digit] = votes.get(digit, 0) + 1` on an insertion-ordered
association list (the Python dict preserves insertion order). -/
def addVote (votes : List (Char × Nat)) (d : Char) : List (Char × Nat) :=
  if votes.any (fun p => p.1 = d) then
    votes.map (fun p => if p.1 = d then (p.1, p.2 + 1) else p)
  else votes ++ [(d, 1)]

/-- The per-position tally loop of `read_digits_with_validation`: visit the
loops in order, counting the character each loop has at `pos` (loops too
short to reach `pos` are skipped). -/
def tallyVotes (loops : List (List Char)) (pos : Nat) : List (Char × Nat) :=
  loops.foldl
    (fun votes loop =>
      match loop.get? pos with
      | some d => addVote votes d
      | none => votes)
    []

/-- The winner-selection loop: iterate the vote entries in insertion order,
replacing the best only on a strictly greater count (initial best is the
empty string with count 0). -/
def bestVote (votes : List (Char × Nat)) : String :=
  (votes.foldl
    (fun best p => if p.2 > best.2 then (String.singleton p.1, p.2) else best)
    ("", 0)).1

/-- The pure core of `read_digits_with_validation` (lines 88–113 of
`read_digits.py`), applied to the concatenated raw digit string. -/
def cross_validate (allDigits : String) (sequenceLength : Nat) : String :=
  if allDigits.length ≤ sequenceLength then allDigits
  else
    let loops := chunkEvery allDigits.data sequenceLength
    String.join ((List.range sequenceLength).map
      (fun pos => bestVote (tallyVotes loops pos)))

/-- `read_digits_with_validation`: read all frames, then cross-validate. -/
def read_digits_with_validation
    (responses : List (Except Unit ClassifyResponse)) (sequenceLength : Nat) :
    Except Unit String :=
  (read_digits_from_frames responses).map (fun s => cross_validate s sequenceLength)

/-- The plurality rule as the specification words it: the winner at a
position is the first character (in column scanning order) whose occurrence
count in the column is maximal — the plurality value with ties broken by
first occurrence. -/
def pluralityWinner (col : List Char) : String :=
  match col.find? (fun c => col.all (fun d => col.count d ≤ col.count c)) with
  | some c => String.singleton c
  | none => ""

/-- The characters the chunks carry at a given position, in chunk order. -/
def columnAt (s : List Char) (L pos : Nat) : List Char :=
  (chunkEvery s L).filterMap (fun chunk => chunk.get? pos)

/-! ## Frame extraction (`skills/video_solver/extract_frames.py`)

A decoded frame is a raw grayscale buffer: `data` lists the pixel bytes
row-major, `width * height` of them.  Python float arithmetic is modelled
in `ℚ`; the `255 - pixel` luminance deficit is computed in `ℤ` as Python's
unbounded ints do. -/

/-- `ExtractionConfig` from `extract_frames.py`, with the source defaults. -/
structure ExtractionConfig where
  fps : Nat := 5
  blank_threshold : ℚ := 0.999
  bright_luminance : Nat := 250
  edge_margin_threshold : ℚ := 0.10
  content_luminance_threshold : Nat := 200
  content_row_threshold : ℚ := 0.005
  deriving DecidableEq, Repr

/-- `FrameAnalysis` from `extract_frames.py`. -/
structure FrameAnalysis where
  path : String
  is_blank : Bool
  top_margin : ℚ
  bottom_margin : ℚ
  is_fully_visible : Bool
  content_hash : ℚ
  deriving DecidableEq, Repr

/-- Number of pixels of the row `y` darker than the content threshold
(`data[y * width + x]` for `x` in `range(width)`). -/
def rowDarkCount (data : List Nat) (width : Nat) (cfg : ExtractionConfig)
    (y : Nat) : Nat :=
  ((List.range width).filter
    (fun x => data.getD (y * width + x) 0 < cfg.content_luminance_threshold)).length

/-- The content-row test: the dark fraction of the row reaches
`content_row_threshold`. -/
def isContentRow (data : List Nat) (width : Nat) (cfg : ExtractionConfig)
    (y : Nat) : Bool :=
  cfg.content_row_threshold ≤ (rowDarkCount data width cfg y : ℚ) / width

/-- The fraction of pixels at or above `bright_luminance` (the Python loop
runs over `len(data)` but divides by `width * height`). -/
def brightFraction (data : List Nat) (width height : Nat)
    (cfg : ExtractionConfig) : ℚ :=
  ((data.filter (fun p => cfg.bright_luminance ≤ p)).length : ℚ) /
    (width * height)

/-- The content rows of the frame, in ascending order (the `for y in
range(height)` scan keeps exactly these). -/
def contentRowsOf (data : List Nat) (width height : Nat)
    (cfg : ExtractionConfig) : List Nat :=
  (List.range height).filter (isContentRow data width cfg)

/-- `y_min`: starts at `height` and takes `min` with every content row. -/
def yMinOf (data : List Nat) (width height : Nat)
    (cfg : ExtractionConfig) : Nat :=
  (contentRowsOf data width height cfg).foldl min height

/-- `y_max`: starts at `0` and takes `max` with every content row. -/
def yMaxOf (data : List Nat) (width height : Nat)
    (cfg : ExtractionConfig) : Nat :=
  (contentRowsOf data width height cfg).foldl max 0

/-- The pixels darker than the content threshold in rows `y_min..y_max`
(empty when `y_min > y_max`, i.e. when no content row exists). -/
def contentPixelsOf (data : List Nat) (width height : Nat)
    (cfg : ExtractionConfig) : List Nat :=
  if yMinOf data width height cfg ≤ yMaxOf data width height cfg then
    (List.range' (yMinOf data width height cfg)
        (yMaxOf data width height cfg + 1 - yMinOf data width height cfg)).flatMap
      (fun y =>
        (List.range width).filterMap (fun x =>
          let p := data.getD (y * width + x) 0
          if p < cfg.content_luminance_threshold then some p else none))
  else []

/-- `analyze_frame` from `extract_frames.py` (its pure pixel analysis; the
ffmpeg decode that produces `data`, `width`, `height` is the external
frame-decode capability). -/
def analyze_frame (path : String) (data : List Nat) (width height : Nat)
    (cfg : ExtractionConfig) : FrameAnalysis :=
  if cfg.blank_threshold ≤ brightFraction data width height cfg then
    ⟨path, true, 1, 1, false, 0⟩
  else
    let yMin := yMinOf data width height cfg
    let yMax := yMaxOf data width height cfg
    let contentPixels := contentPixelsOf data width height cfg
    let contentDarkness : ℤ := (contentPixels.map (fun p => (255 : ℤ) - p)).sum
    let top_margin : ℚ := (yMin : ℚ) / height
    let bottom_margin : ℚ := ((height : ℚ) - 1 - yMax) / height
    let fully :=
      cfg.edge_margin_threshold ≤ top_margin ∧
      cfg.edge_margin_threshold ≤ bottom_margin
    ⟨path, false, top_margin, bottom_margin, decide fully,
      if contentPixels.length > 0 then
        (contentDarkness : ℚ) / contentPixels.length
      else 0⟩

/-- The visibility filter of `extract_distinct_frames`
(`not analysis.is_blank and analysis.is_fully_visible`). -/
def passesVisibilityFilter (a : FrameAnalysis) : Bool :=
  !a.is_blank && a.is_fully_visible

/-- The grouping loop of `deduplicate_frames`: extend the current group
(kept as head plus tail) while the original-index gap is at most 1, start a
new group otherwise.  Index arithmetic is over `ℤ` as in Python. -/
def gapGroupsAux (h : FrameAnalysis) (tl : List FrameAnalysis) (prevIdx : Nat) :
    List (FrameAnalysis × Nat) → List (FrameAnalysis × List FrameAnalysis)
  | [] => [(h, tl)]
  | (f, i) :: rest =>
      if (i : ℤ) - (prevIdx : ℤ) ≤ 1 then gapGroupsAux h (tl ++ [f]) i rest
      else (h, tl) :: gapGroupsAux f [] i rest

/-- The selection loop of `deduplicate_frames`: start from the group's first
member and replace it only on a strictly smaller `|top_margin -
bottom_margin|`. -/
def bestOfGroup (h : FrameAnalysis) (tl : List FrameAnalysis) : FrameAnalysis :=
  tl.foldl
    (fun best frame =>
      if |frame.top_margin - frame.bottom_margin| <
          |best.top_margin - best.bottom_margin| then frame
      else best)
    h

/-- `deduplicate_frames` from `extract_frames.py` (frames paired with their
original indices positionally, as the parallel-array source does). -/
def deduplicate_frames (frames : List FrameAnalysis)
    (original_indices : List Nat) : List FrameAnalysis :=
  match frames.zip original_indices with
  | [] => []
  | (f, i) :: rest =>
      (gapGroupsAux f [] i rest).map (fun g => bestOfGroup g.1 g.2)

/-- Gap splitting as the specification words it, written as a right fold:
a boundary falls exactly between consecutive entries whose original indices
differ by more than 1. -/
def specSplitGaps (l : List (FrameAnalysis × Nat)) :
    List (List (FrameAnalysis × Nat)) :=
  l.foldr
    (fun x groups =>
      match groups with
      | [] => [[x]]
      | [] :: rest => [x] :: rest
      | (y :: g) :: rest =>
          if (y.2 : ℤ) - (x.2 : ℤ) > 1 then [x] :: (y :: g) :: rest
          else (x :: y :: g) :: rest)
    []

/-- The representative the specification selects from a group: the member
minimizing `|top_margin - bottom_margin|`, earliest on ties
(`List.argmin` keeps the first minimizer). -/
def specRepresentative (g : List (FrameAnalysis × Nat)) : Option FrameAnalysis :=
  (g.map Prod.fst).argmin (fun f => |f.top_margin - f.bottom_margin|)

/-- `deduplicate_frames` as the specification describes it. -/
def specDeduplicate (frames : List FrameAnalysis)
    (original_indices : List Nat) : List FrameAnalysis :=
  (specSplitGaps (frames.zip original_indices)).filterMap specRepresentative

/-! ## Auxiliary definitions used by the theorems -/

/-- The chunk-verification property restricted to full-length chunks — what
the code's inner loop actually enforces: every chunk of exactly the candidate
length equals the candidate (short final chunks are exempt). -/
def FullChunksMatch (s : List Char) (L : Nat) : Prop :=
  ∀ i, L ≤ i → i % L = 0 → i + L ≤ s.length → chunkAt s i L = s.take L

/-- First-occurrence deduplication, used to describe the key order of the
Python dict that accumulates votes. -/
def dedupF : List Char → List Char
  | [] => []
  | c :: cs => c :: dedupF (cs.filter (fun d => d ≠ c))
  termination_by l => l.length
  decreasing_by
    simp only [List.length_cons]
    exact Nat.lt_succ_of_le (List.length_filter_le _ _)

/-- The tally fold applied to a plain character column. -/
def tallyChars (cs : List Char) : List (Char × Nat) :=
  cs.foldl addVote []

/-- View a nonempty group as its head frame and tail frames (the argument is
never `[]` where this is used; the fallback value is irrelevant junk). -/
def groupHT : List (FrameAnalysis × Nat) → FrameAnalysis × List FrameAnalysis
  | [] => (⟨"", false, 0, 0, false, 0⟩, [])
  | (f, _) :: t => (f, t.map Prod.fst)

/-- The centering score `|top_margin - bottom_margin|` minimized inside each
group. -/
def centerScore (f : FrameAnalysis) : ℚ :=
  |f.top_margin - f.bottom_margin|

/-- How a pending group `(h, tl)` whose last original index is `prevIdx`
combines with the groups found in the remaining stream: the first following
group joins it when the index gap is at most 1. -/
def specMerge (h : FrameAnalysis) (tl : List FrameAnalysis) (prevIdx : Nat) :
    List (List (FrameAnalysis × Nat)) → List (FrameAnalysis × List FrameAnalysis)
  | [] => [(h, tl)]
  | [] :: _ => [(h, tl)]
  | ((f₁, i₁) :: gtail) :: gs =>
      if (i₁ : ℤ) - (prevIdx : ℤ) ≤ 1 then
        (h, tl ++ (f₁ :: gtail.map Prod.fst)) :: gs.map groupHT
      else
        (h, tl) :: (f₁, gtail.map Prod.fst) :: gs.map groupHT

/-- The basic-latin uppercase letters — exactly the characters moved by
`Char.toLower`. -/
def UPPER_LETTERS : List Char :=
  ['A','B','C','D','E','F','G','H','I','J','K','L','M',
   'N','O','P','Q','R','S','T','U','V','W','X','Y','Z']

/-! Concrete instances used by witnesses and counterexamples. -/

/-- A deterministic random source: every uniform draw is `1/2`, every IKI
sample 200 ms, every choice takes the first element. -/
def rngHalf : Rng := ⟨fun _ => 1 / 2, fun _ => 200, fun _ => 0⟩

/-- A valid config with certain typos that are never corrected. -/
def cfgNoCorrection : HumanTyperConfig :=
  { typo_rate := 1, typo_correction_rate := 0, long_pause_chance := 0 }

/-- A frame-analysis value with the given path and margins. -/
def mkFrame (p : String) (t b : ℚ) : FrameAnalysis := ⟨p, false, t, b, true, 100⟩

/-- A 2×5 grayscale buffer whose middle row is black and the rest white. -/
def witnessBuffer : List Nat := [255, 255, 255, 255, 0, 0, 255, 255, 255, 255]

/-! ## Theorems -/

/-! ### C4: `HumanTyperConfig` construction -/

/-- C4 (counterexample): the dataclass constructor accepts an out-of-range
value — a config with `average_wpm = -5` is constructed successfully and
stores the invalid value, so construction does not reject out-of-range
values as the claim states. -/
theorem humanTyperConfig_accepts_invalid :
    ({ average_wpm := -5 } : HumanTyperConfig).average_wpm = -5 ∧
    ¬ specConfigValid { average_wpm := -5 } := by
  refine ⟨rfl, fun h => ?_⟩
  have h1 := h.1
  norm_num at h1

/-- C4 (amended): `HumanTyperConfig` is a plain dataclass: its constructor
performs no validation, storing all eight field values verbatim whatever
their range, and an omitted field takes the documented default
(70, 17.5, 0.01, 0.96, 300, 800, 0.05, 2000).  Nothing enforces immutability
(the dataclass is not frozen) and no out-of-range value is rejected. -/
theorem humanTyperConfig_stores_fields_verbatim :
    (∀ a b c d e f g h : ℚ,
      (HumanTyperConfig.mk a b c d e f g h).average_wpm = a ∧
      (HumanTyperConfig.mk a b c d e f g h).wpm_std_dev = b ∧
      (HumanTyperConfig.mk a b c d e f g h).typo_rate = c ∧
      (HumanTyperConfig.mk a b c d e f g h).typo_correction_rate = d ∧
      (HumanTyperConfig.mk a b c d e f g h).word_boundary_pause_ms = e ∧
      (HumanTyperConfig.mk a b c d e f g h).sentence_boundary_pause_ms = f ∧
      (HumanTyperConfig.mk a b c d e f g h).long_pause_chance = g ∧
      (HumanTyperConfig.mk a b c d e f g h).long_pause_max_ms = h) ∧
    ({} : HumanTyperConfig) =
      HumanTyperConfig.mk 70 17.5 0.01 0.96 300 800 0.05 2000 := by
  exact ⟨fun a b c d e f g h => ⟨rfl, rfl, rfl, rfl, rfl, rfl, rfl, rfl⟩, rfl⟩

/-! ### C2: per-frame classification failure handling -/

/-- Any raised per-frame exception makes the gathered batch raise. -/
theorem read_digit_results_of_error {rs : List (Except Unit ClassifyResponse)}
    (h : Except.error () ∈ rs) : read_digit_results rs = .error () := by
  induction rs with
  | nil => cases h
  | cons r rest ih =>
    rcases List.mem_cons.mp h with h1 | h1
    · cases h1; rfl
    · cases r with
      | error e => rfl
      | ok b => simp only [read_digit_results, read_digit_from_frame, ih h1]

/-- With every call succeeding, the gathered batch lists the per-frame
extractions in order. -/
theorem read_digit_results_of_ok (bs : List ClassifyResponse) :
    read_digit_results (bs.map Except.ok) = .ok (bs.map extract_digit_text) := by
  induction bs with
  | nil => rfl
  | cons b rest ih =>
    simp only [List.map_cons, read_digit_results, read_digit_from_frame, ih]

/-- C2 (counterexample): with the middle frame's classification raising, the
whole batch raises — no string is returned at all, so the failed position is
not degraded to a placeholder and the other positions' results are lost. -/
theorem read_digits_error_aborts_batch :
    read_digits_from_frames
      [.ok ⟨true, "3"⟩, .error (), .ok ⟨true, "9"⟩] = .error () ∧
    ∀ out : String,
      read_digits_from_frames
        [.ok ⟨true, "3"⟩, .error (), .ok ⟨true, "9"⟩] ≠ .ok out := by
  refine ⟨rfl, fun out h => ?_⟩
  have h0 : read_digits_from_frames
      [.ok ⟨true, "3"⟩, .error (), .ok ⟨true, "9"⟩] = .error () := rfl
  rw [h0] at h
  exact Except.noConfusion h

/-- C2 (amended): `read_digit_from_frame` catches nothing, and
`read_digits_from_frames` gathers without `return_exceptions`, so one
errored or timed-out classification aborts the whole batch with that error;
only when every call returns does the batch produce a string, and then it is
the in-order concatenation of the per-frame extractions (first digit of the
trimmed reply, or the trimmed reply itself as the non-digit fallback), so
positional alignment is preserved exactly in the all-success case. -/
theorem read_digits_from_frames_batch_behavior
    (rs : List (Except Unit ClassifyResponse)) :
    (Except.error () ∈ rs → read_digits_from_frames rs = .error ()) ∧
    (∀ bs : List ClassifyResponse, rs = bs.map Except.ok →
      read_digits_from_frames rs =
        .ok (String.join (bs.map extract_digit_text))) := by
  constructor
  · intro h
    simp only [read_digits_from_frames, read_digit_results_of_error h,
      Except.map]
  · intro bs hbs
    subst hbs
    simp only [read_digits_from_frames, read_digit_results_of_ok, Except.map]

/-- C2 (witness): the amended theorem applied to the error batch above and
to a fully successful batch with a noisy reply, a digitless reply, and a
non-text block. -/
theorem read_digits_from_frames_batch_behavior_witness :
    read_digits_from_frames
      [.ok ⟨true, "3"⟩, .error (), .ok ⟨true, "9"⟩] = .error () ∧
    read_digits_from_frames
      [.ok ⟨true, " The digit is 3. "⟩, .ok ⟨true, "unknown"⟩,
        .ok ⟨false, "x"⟩] = .ok "3unknown" := by
  constructor
  · exact (read_digits_from_frames_batch_behavior _).1 (by simp)
  · exact ((read_digits_from_frames_batch_behavior _).2
      [⟨true, " The digit is 3. "⟩, ⟨true, "unknown"⟩, ⟨false, "x"⟩] rfl).trans
      (congrArg Except.ok (by decide))

/-! ### C1: repeating-sequence detection -/

/-- Membership in the chunk start indices. -/
theorem mem_chunkStarts {n len i : Nat} :
    i ∈ chunkStarts n len ↔ i < n ∧ len ≤ i ∧ i % len = 0 := by
  simp [chunkStarts, List.mem_filter, List.mem_range, and_assoc]

/-- The inner verification loop accepts a candidate length iff every
full-length chunk equals the candidate. -/
theorem chunkMatches_iff {s : List Char} {L : Nat} (hL : 1 ≤ L) :
    chunkMatches s L = true ↔ FullChunksMatch s L := by
  unfold chunkMatches FullChunksMatch
  rw [List.all_eq_true]
  constructor
  · intro h i hLi hmod hiL
    have hi : i < s.length := by omega
    have hmem : i ∈ chunkStarts s.length L := mem_chunkStarts.mpr ⟨hi, hLi, hmod⟩
    have := h i hmem
    simp only [Bool.or_eq_true, decide_eq_true_eq] at this
    rcases this with hlen | heq
    · exfalso
      apply hlen
      simp only [chunkAt, List.length_take, List.length_drop]
      omega
    · exact heq
  · intro h i hmem
    obtain ⟨hi, hLi, hmod⟩ := mem_chunkStarts.mp hmem
    simp only [Bool.or_eq_true, decide_eq_true_eq]
    by_cases hfull : i + L ≤ s.length
    · exact Or.inr (h i hLi hmod hfull)
    · left
      simp only [chunkAt, List.length_take, List.length_drop]
      omega

/-- `find?` over an arithmetic range returns the first satisfying value. -/
theorem find?_range'_eq_some {p : Nat → Bool} :
    ∀ {k s L : Nat}, (List.range' s k).find? p = some L →
      p L = true ∧ s ≤ L ∧ L < s + k ∧ ∀ m, s ≤ m → m < L → p m = false := by
  intro k
  induction k with
  | zero => intro s L h; simp [List.range'] at h
  | succ k ih =>
    intro s L h
    rw [List.range'_succ] at h
    by_cases hp : p s
    · rw [List.find?_cons_of_pos _ hp] at h
      cases h
      exact ⟨hp, Nat.le_refl _, by omega, fun m h1 h2 => absurd h1 (by omega)⟩
    · rw [List.find?_cons_of_neg _ hp] at h
      obtain ⟨h1, h2, h3, h4⟩ := ih h
      refine ⟨h1, by omega, by omega, fun m hm1 hm2 => ?_⟩
      by_cases hms : m = s
      · subst hms; exact Bool.of_not_eq_true hp
      · exact h4 m (by omega) hm2

/-- C1 (counterexample): on `"12123"` the code returns `"12"`, accepting
candidate length 2 although the final chunk `"3"` is not a prefix of `"12"`;
the claimed truncated-chunk rule (embodied by `specDetectRepeating`) yields
`"12123"` instead, so the claim fails at this input. -/
theorem detect_repeating_partial_chunk_cex :
    detect_repeating_sequence "12123" = "12" ∧
    specDetectRepeating "12123" = "12123" ∧
    detect_repeating_sequence "12123" ≠ specDetectRepeating "12123" :=
  ⟨by decide, by decide, by decide⟩

/-- C1 (amended): for every digit string `s` of length `n`,
`detect_repeating_sequence` returns `s[0:L]` for the smallest `L` in
`1..⌊n/2⌋` such that every subsequent chunk of full length `L` equals
`s[0:L]` — the final shorter chunk, if any, is not checked at all — and
returns `s` unchanged when no such `L` exists; it never fails. -/
theorem detect_repeating_first_full_length_match (digits : String) :
    (∃ L, 1 ≤ L ∧ L ≤ digits.data.length / 2 ∧ FullChunksMatch digits.data L ∧
      (∀ M, 1 ≤ M → M < L → ¬ FullChunksMatch digits.data M) ∧
      detect_repeating_sequence digits = String.mk (digits.data.take L)) ∨
    ((∀ L, 1 ≤ L → L ≤ digits.data.length / 2 → ¬ FullChunksMatch digits.data L) ∧
      detect_repeating_sequence digits = digits) := by
  cases hfind : (List.range' 1 (digits.data.length / 2)).find?
      (fun len => chunkMatches digits.data len) with
  | some L =>
    left
    obtain ⟨h1, h2, h3, h4⟩ := find?_range'_eq_some hfind
    refine ⟨L, h2, by omega, (chunkMatches_iff h2).mp h1, ?_, ?_⟩
    · intro M hM1 hM2 hFCM
      have := h4 M hM1 hM2
      rw [(chunkMatches_iff hM1).symm.mp hFCM] at this
      exact Bool.noConfusion this
    · simp only [detect_repeating_sequence, hfind]
  | none =>
    right
    constructor
    · intro L hL1 hL2 hFCM
      have hmem : L ∈ List.range' 1 (digits.data.length / 2) := by
        rw [List.mem_range']
        exact ⟨L - 1, by omega, by omega⟩
      have := List.find?_eq_none.mp hfind L hmem
      exact this ((chunkMatches_iff hL1).mpr hFCM)
    · simp only [detect_repeating_sequence, hfind]

/-- C1 (witness): the amended theorem applied to `"3169316931693169"`,
together with the concrete outcome the first disjunct then forces. -/
theorem detect_repeating_first_full_length_match_witness :
    ((∃ L, 1 ≤ L ∧ L ≤ "3169316931693169".data.length / 2 ∧
      FullChunksMatch "3169316931693169".data L ∧
      (∀ M, 1 ≤ M → M < L → ¬ FullChunksMatch "3169316931693169".data M) ∧
      detect_repeating_sequence "3169316931693169" =
        String.mk ("3169316931693169".data.take L)) ∨
    ((∀ L, 1 ≤ L → L ≤ "3169316931693169".data.length / 2 →
        ¬ FullChunksMatch "3169316931693169".data L) ∧
      detect_repeating_sequence "3169316931693169" = "3169316931693169")) ∧
    detect_repeating_sequence "3169316931693169" = "3169" :=
  ⟨detect_repeating_first_full_length_match "3169316931693169", by decide⟩

/-! ### C9: QWERTY neighbor substitution -/

/-- Indexing with a default stays inside the list when in bounds. -/
theorem getD_mem_of_lt {l : List Char} {n : Nat} {d : Char}
    (h : n < l.length) : l.getD n d ∈ l := by
  rw [List.getD_eq_getElem?_getD, List.getElem?_eq_getElem h]
  exact List.getElem_mem h

/-- A character that `toLower` moves is a basic-latin capital letter. -/
theorem mem_upper_of_ne_toLower {c : Char} (h : c ≠ c.toLower) :
    c ∈ UPPER_LETTERS := by
  have hb : 65 ≤ c.toNat ∧ c.toNat ≤ 90 := by
    by_cases hcond : 65 ≤ c.toNat ∧ c.toNat ≤ 90
    · exact hcond
    · exfalso
      apply h
      simp only [Char.toLower]
      rw [if_neg (by omega)]
  have h3 : c.toNat ∈ List.range' 65 26 :=
    List.mem_range'.mpr ⟨c.toNat - 65, by omega, by omega⟩
  have h4 : ∀ m ∈ List.range' 65 26, Char.ofNat m ∈ UPPER_LETTERS := by decide
  have := h4 _ h3
  rwa [Char.ofNat_toNat] at this

/-- A successful dictionary lookup comes from a table entry. -/
theorem qwertyNeighbors_eq_some {c : Char} {ns : List Char}
    (h : qwertyNeighbors c = some ns) :
    ∃ p ∈ QWERTY_NEIGHBORS, p.1 = c ∧ p.2 = ns := by
  unfold qwertyNeighbors at h
  cases hf : QWERTY_NEIGHBORS.find? (fun p => p.1 = c) with
  | none => rw [hf] at h; exact Option.noConfusion h
  | some p =>
    rw [hf] at h
    refine ⟨p, List.mem_of_find?_eq_some hf, ?_, ?_⟩
    · have := List.find?_some hf
      exact of_decide_eq_true this
    · injection h

/-- How `nearby_key` evaluates when the lookup finds a nonempty list. -/
theorem nearby_choice_of_some {c : Char} {ns : List Char} (n : Nat)
    (hns : qwertyNeighbors c.toLower = some ns) (hlen : 0 < ns.length) :
    nearby_choice c n =
      if c ≠ c.toLower then (ns.getD (n % ns.length) 'a').toUpper
      else ns.getD (n % ns.length) 'a' := by
  simp only [nearby_choice, hns]
  rw [if_pos hlen]

/-- How `nearby_key` evaluates in the random-letter fallback. -/
theorem nearby_choice_fallback {c : Char} (n : Nat)
    (hfall : qwertyNeighbors c.toLower = none ∨
      qwertyNeighbors c.toLower = some []) :
    nearby_choice c n =
      if c ≠ c.toLower then (LETTERS.getD (n % LETTERS.length) 'a').toUpper
      else LETTERS.getD (n % LETTERS.length) 'a' := by
  rcases hfall with hnone | hnil
  · simp only [nearby_choice, hnone]
  · simp only [nearby_choice, hnil]
    rw [if_neg (by simp)]

/-- C9: when the key's lowercase form has listed neighbors, `nearby_key`
returns one of them (upper-cased when the key is not its own lowercase form,
preserving case) and never the key itself; without listed neighbors it
returns a random letter (case-adjusted likewise), and every letter is
reachable by some draw, as uniform selection requires. -/
theorem nearby_key_neighbors (c : Char) (n : Nat) :
    (∀ ns, qwertyNeighbors c.toLower = some ns → ns ≠ [] →
      nearby_choice c n ∈ (if c = c.toLower then ns else ns.map Char.toUpper) ∧
      nearby_choice c n ≠ c) ∧
    ((qwertyNeighbors c.toLower = none ∨ qwertyNeighbors c.toLower = some []) →
      nearby_choice c n ∈
        (if c = c.toLower then LETTERS else LETTERS.map Char.toUpper) ∧
      ∀ l ∈ LETTERS, nearby_choice c (LETTERS.indexOf l) =
        (if c = c.toLower then l else l.toUpper)) := by
  constructor
  · intro ns hns hne
    have hlen : 0 < ns.length := List.length_pos.mpr hne
    have hpick : ns.getD (n % ns.length) 'a' ∈ ns :=
      getD_mem_of_lt (Nat.mod_lt _ hlen)
    obtain ⟨p, hp, hpk, hpv⟩ := qwertyNeighbors_eq_some hns
    have hres := nearby_choice_of_some n hns hlen
    by_cases hcase : c = c.toLower
    · rw [hres, if_neg (not_not_intro hcase), if_pos hcase]
      refine ⟨hpick, fun hEq => ?_⟩
      have hnotin : ∀ q ∈ QWERTY_NEIGHBORS, q.1 ∉ q.2 := by decide
      apply hnotin p hp
      rw [hpk, hpv, ← hcase, ← hEq]
      exact hpick
    · rw [hres, if_pos hcase, if_neg hcase]
      constructor
      · exact List.mem_map_of_mem _ hpick
      · have hup : c ∈ UPPER_LETTERS := mem_upper_of_ne_toLower hcase
        have hfact : ∀ d ∈ UPPER_LETTERS, ∀ q ∈ QWERTY_NEIGHBORS,
            q.1 = d.toLower → ∀ x ∈ q.2, x.toUpper ≠ d := by decide
        exact hfact c hup p hp hpk _ (hpv ▸ hpick)
  · intro hfall
    have hlen : 0 < LETTERS.length := by decide
    have hpick : LETTERS.getD (n % LETTERS.length) 'a' ∈ LETTERS :=
      getD_mem_of_lt (Nat.mod_lt _ hlen)
    constructor
    · rw [nearby_choice_fallback n hfall]
      by_cases hcase : c = c.toLower
      · rw [if_neg (not_not_intro hcase), if_pos hcase]; exact hpick
      · rw [if_pos hcase, if_neg hcase]; exact List.mem_map_of_mem _ hpick
    · intro l hl
      rw [nearby_choice_fallback _ hfall]
      have hidx : ∀ x ∈ LETTERS,
          LETTERS.getD (LETTERS.indexOf x % LETTERS.length) 'a' = x := by decide
      by_cases hcase : c = c.toLower
      · rw [if_neg (not_not_intro hcase), if_pos hcase, hidx l hl]
      · rw [if_pos hcase, if_neg hcase, hidx l hl]

/-- C9 (witness): the theorem applied to the uppercase key `'T'` (neighbors
present; the result is an upper-cased neighbor and differs from `'T'`) and
to `'@'` (no table entry; the fallback letter applies). -/
theorem nearby_key_neighbors_witness :
    (nearby_choice 'T' 1 ∈
        (if 'T' = 'T'.toLower then ['5', '6', 'r', 'y', 'f', 'g']
         else ['5', '6', 'r', 'y', 'f', 'g'].map Char.toUpper) ∧
      nearby_choice 'T' 1 ≠ 'T') ∧
    (nearby_choice '@' 3 ∈
        (if '@' = '@'.toLower then LETTERS else LETTERS.map Char.toUpper) ∧
      ∀ l ∈ LETTERS, nearby_choice '@' (LETTERS.indexOf l) =
        (if '@' = '@'.toLower then l else l.toUpper)) :=
  ⟨(nearby_key_neighbors 'T' 1).1 ['5', '6', 'r', 'y', 'f', 'g'] (by decide)
      (by decide),
    (nearby_key_neighbors '@' 3).2 (Or.inl (by decide))⟩

/-! ### C7 and C10: frame analysis -/

/-- A `min`-fold never exceeds its initial value. -/
theorem foldl_min_le_init (l : List Nat) (a : Nat) : l.foldl min a ≤ a := by
  induction l generalizing a with
  | nil => exact Nat.le_refl a
  | cons b l ih => exact le_trans (ih (min a b)) (min_le_left a b)

/-- A `min`-fold never exceeds a list member. -/
theorem foldl_min_le_mem {l : List Nat} {x : Nat} (a : Nat) (hx : x ∈ l) :
    l.foldl min a ≤ x := by
  induction l generalizing a with
  | nil => cases hx
  | cons b l ih =>
    rcases List.mem_cons.mp hx with rfl | hx
    · exact le_trans (foldl_min_le_init l (min a x)) (min_le_right a x)
    · exact ih (min a b) hx

/-- A `min`-fold yields the initial value or a list member. -/
theorem foldl_min_cases (l : List Nat) (a : Nat) :
    l.foldl min a = a ∨ l.foldl min a ∈ l := by
  induction l generalizing a with
  | nil => exact Or.inl rfl
  | cons b l ih =>
    rcases ih (min a b) with h | h
    · rcases Nat.le_total a b with hab | hab
      · left
        rw [List.foldl_cons, h, min_eq_left hab]
      · right
        rw [List.foldl_cons, h, min_eq_right hab]
        exact List.mem_cons_self b l
    · right
      rw [List.foldl_cons]
      exact List.mem_cons_of_mem b h

/-- A `max`-fold is at least its initial value. -/
theorem le_foldl_max_init (l : List Nat) (a : Nat) : a ≤ l.foldl max a := by
  induction l generalizing a with
  | nil => exact Nat.le_refl a
  | cons b l ih => exact le_trans (le_max_left a b) (ih (max a b))

/-- A `max`-fold is at least every list member. -/
theorem le_foldl_max_mem {l : List Nat} {x : Nat} (a : Nat) (hx : x ∈ l) :
    x ≤ l.foldl max a := by
  induction l generalizing a with
  | nil => cases hx
  | cons b l ih =>
    rcases List.mem_cons.mp hx with rfl | hx
    · exact le_trans (le_max_right a x) (le_foldl_max_init l (max a x))
    · exact ih (max a b) hx

/-- A `max`-fold yields the initial value or a list member. -/
theorem foldl_max_cases (l : List Nat) (a : Nat) :
    l.foldl max a = a ∨ l.foldl max a ∈ l := by
  induction l generalizing a with
  | nil => exact Or.inl rfl
  | cons b l ih =>
    rcases ih (max a b) with h | h
    · rcases Nat.le_total a b with hab | hab
      · right
        rw [List.foldl_cons, h, max_eq_right hab]
        exact List.mem_cons_self b l
      · left
        rw [List.foldl_cons, h, max_eq_left hab]
    · right
      rw [List.foldl_cons]
      exact List.mem_cons_of_mem b h

/-- Membership in the content-row list. -/
theorem mem_contentRowsOf {data : List Nat} {width height : Nat}
    {cfg : ExtractionConfig} {y : Nat} :
    y ∈ contentRowsOf data width height cfg ↔
      y < height ∧ isContentRow data width cfg y = true := by
  simp [contentRowsOf, List.mem_filter, List.mem_range]

/-- The non-blank branch of `analyze_frame`, written out. -/
theorem analyze_frame_nonblank (path : String) (data : List Nat)
    (width height : Nat) (cfg : ExtractionConfig)
    (hnb : ¬ (cfg.blank_threshold ≤ brightFraction data width height cfg)) :
    analyze_frame path data width height cfg =
      ⟨path, false, (yMinOf data width height cfg : ℚ) / height,
        ((height : ℚ) - 1 - yMaxOf data width height cfg) / height,
        decide (cfg.edge_margin_threshold ≤
            (yMinOf data width height cfg : ℚ) / height ∧
          cfg.edge_margin_threshold ≤
            ((height : ℚ) - 1 - yMaxOf data width height cfg) / height),
        if (contentPixelsOf data width height cfg).length > 0 then
          ((((contentPixelsOf data width height cfg).map
              (fun p => (255 : ℤ) - p)).sum : ℚ) /
            (contentPixelsOf data width height cfg).length)
        else 0⟩ := by
  unfold analyze_frame
  rw [if_neg hnb]

/-- C7: on a valid buffer, `analyze_frame` returns the all-blank analysis
(margins 1, not fully visible, zero hash) exactly when the bright fraction
reaches the blank threshold; otherwise its margins are `yMin/height` and
`(height-1-yMax)/height` for the first/last content rows `yMin`/`yMax`, and
`is_fully_visible` holds exactly when both margins reach the edge-margin
threshold — so with a positive threshold, content touching row 0 or the last
row forces `is_fully_visible = false`. -/
theorem analyze_frame_spec (path : String) (data : List Nat)
    (width height : Nat) (cfg : ExtractionConfig)
    (hw : 0 < width) (hh : 0 < height)
    (hlen : data.length = width * height) :
    (cfg.blank_threshold ≤ brightFraction data width height cfg →
      analyze_frame path data width height cfg = ⟨path, true, 1, 1, false, 0⟩) ∧
    (brightFraction data width height cfg < cfg.blank_threshold →
      (∀ yMn yMx : Nat,
        yMn < height → isContentRow data width cfg yMn = true →
        (∀ y, y < yMn → isContentRow data width cfg y = false) →
        yMx < height → isContentRow data width cfg yMx = true →
        (∀ y, yMx < y → y < height → isContentRow data width cfg y = false) →
        (analyze_frame path data width height cfg).top_margin =
            (yMn : ℚ) / height ∧
        (analyze_frame path data width height cfg).bottom_margin =
            ((height : ℚ) - 1 - yMx) / height ∧
        ((analyze_frame path data width height cfg).is_fully_visible = true ↔
          cfg.edge_margin_threshold ≤ (yMn : ℚ) / height ∧
          cfg.edge_margin_threshold ≤ ((height : ℚ) - 1 - yMx) / height)) ∧
      (0 < cfg.edge_margin_threshold →
        (isContentRow data width cfg 0 = true ∨
          isContentRow data width cfg (height - 1) = true) →
        (analyze_frame path data width height cfg).is_fully_visible = false)) := by
  constructor
  · intro hblank
    unfold analyze_frame
    rw [if_pos hblank]
  · intro hnb'
    have hnb : ¬ (cfg.blank_threshold ≤ brightFraction data width height cfg) :=
      not_le.mpr hnb'
    have hmain : ∀ yMn yMx : Nat,
        yMn < height → isContentRow data width cfg yMn = true →
        (∀ y, y < yMn → isContentRow data width cfg y = false) →
        yMx < height → isContentRow data width cfg yMx = true →
        (∀ y, yMx < y → y < height → isContentRow data width cfg y = false) →
        yMinOf data width height cfg = yMn ∧ yMaxOf data width height cfg = yMx := by
      intro yMn yMx h1 h2 h3 h4 h5 h6
      constructor
      · have hmem : yMn ∈ contentRowsOf data width height cfg :=
          mem_contentRowsOf.mpr ⟨h1, h2⟩
        have hle : yMinOf data width height cfg ≤ yMn :=
          foldl_min_le_mem height hmem
        rcases foldl_min_cases (contentRowsOf data width height cfg) height with
          hc | hc
        · exfalso
          rw [yMinOf] at hle
          omega
        · obtain ⟨_, hcontent⟩ := mem_contentRowsOf.mp hc
          by_contra hne
          have hlt : yMinOf data width height cfg < yMn := by
            rcases Nat.lt_or_ge (yMinOf data width height cfg) yMn with h | h
            · exact h
            · exact absurd (Nat.le_antisymm hle h) hne
          have := h3 _ hlt
          rw [yMinOf] at this
          rw [this] at hcontent
          exact Bool.noConfusion hcontent
      · have hmem : yMx ∈ contentRowsOf data width height cfg :=
          mem_contentRowsOf.mpr ⟨h4, h5⟩
        have hge : yMx ≤ yMaxOf data width height cfg :=
          le_foldl_max_mem 0 hmem
        rcases foldl_max_cases (contentRowsOf data width height cfg) 0 with
          hc | hc
        · rw [yMaxOf] at hge ⊢
          omega
        · obtain ⟨hlt, hcontent⟩ := mem_contentRowsOf.mp hc
          by_contra hne
          have hgt : yMx < yMaxOf data width height cfg := by
            rcases Nat.lt_or_ge yMx (yMaxOf data width height cfg) with h | h
            · exact h
            · exact absurd (Nat.le_antisymm h hge) hne
          have := h6 _ hgt hlt
          rw [yMaxOf] at this
          rw [this] at hcontent
          exact Bool.noConfusion hcontent
    constructor
    · intro yMn yMx h1 h2 h3 h4 h5 h6
      obtain ⟨hmin, hmax⟩ := hmain yMn yMx h1 h2 h3 h4 h5 h6
      rw [analyze_frame_nonblank path data width height cfg hnb]
      refine ⟨by rw [hmin], by rw [hmax], ?_⟩
      rw [hmin, hmax]
      simp
    · intro hpos hedge
      rw [analyze_frame_nonblank path data width height cfg hnb]
      simp only [decide_eq_false_iff_not, not_and_or, not_le]
      rcases hedge with h0 | hlast
      · have hmem : (0 : Nat) ∈ contentRowsOf data width height cfg :=
          mem_contentRowsOf.mpr ⟨hh, h0⟩
        have hle : yMinOf data width height cfg ≤ 0 := foldl_min_le_mem height hmem
        have hz : yMinOf data width height cfg = 0 := Nat.le_zero.mp hle
        left
        rw [hz]
        simpa using hpos
      · have hmem : height - 1 ∈ contentRowsOf data width height cfg :=
          mem_contentRowsOf.mpr ⟨by omega, hlast⟩
        have hge : height - 1 ≤ yMaxOf data width height cfg :=
          le_foldl_max_mem 0 hmem
        have hlt : yMaxOf data width height cfg < height := by
          rcases foldl_max_cases (contentRowsOf data width height cfg) 0 with
            hc | hc
          · rw [yMaxOf]; omega
          · exact (mem_contentRowsOf.mp hc).1
        have hz : yMaxOf data width height cfg = height - 1 := by omega
        right
        rw [hz]
        have : ((height : ℚ) - 1 - (height - 1 : Nat)) = 0 := by
          push_cast [Nat.cast_sub (by omega : 1 ≤ height)]
          ring
        rw [this, zero_div]
        exact hpos

/-- C7 (witness): the theorem applied to a 2×5 buffer whose only content row
is row 2 — margins `2/5` on both sides and fully visible under the default
10% threshold. -/
theorem analyze_frame_spec_witness :
    (analyze_frame "f" witnessBuffer 2 5 {}).top_margin = (2 : ℚ) / 5 ∧
    (analyze_frame "f" witnessBuffer 2 5 {}).bottom_margin =
      ((5 : ℚ) - 1 - 2) / 5 ∧
    ((analyze_frame "f" witnessBuffer 2 5 {}).is_fully_visible = true ↔
      ({} : ExtractionConfig).edge_margin_threshold ≤ (2 : ℚ) / 5 ∧
      ({} : ExtractionConfig).edge_margin_threshold ≤ ((5 : ℚ) - 1 - 2) / 5) := by
  have hrow2 : isContentRow witnessBuffer 2 {} 2 = true := by
    norm_num [isContentRow, rowDarkCount, witnessBuffer, List.range, List.filter,
      List.range.loop]
  have hother : ∀ y, y < 5 → y ≠ 2 → isContentRow witnessBuffer 2 {} y = false := by
    intro y hy hne
    interval_cases y <;>
      first
      | exact absurd rfl hne
      | norm_num [isContentRow, rowDarkCount, witnessBuffer, List.range,
          List.filter, List.range.loop]
  have hbf : brightFraction witnessBuffer 2 5 {} < ({} : ExtractionConfig).blank_threshold := by
    norm_num [brightFraction, witnessBuffer, List.filter]
  exact ((analyze_frame_spec "f" witnessBuffer 2 5 {}
      (by norm_num) (by norm_num) (by decide)).2 hbf).1 2 2
    (by norm_num) hrow2 (fun y hy => hother y (by omega) (by omega))
    (by norm_num) hrow2 (fun y hy1 hy2 => hother y hy2 (by omega))

/-- C10: a valid non-blank buffer without any content row (no row's dark
fraction reaches `content_row_threshold`) is analyzed with `top_margin = 1`,
`bottom_margin = (height-1)/height`, `content_hash = 0`, and — whenever
`(height-1)/height` reaches the edge-margin threshold — `is_fully_visible =
true`, so such a content-free frame passes the fully-visible filter of
`extract_distinct_frames` into deduplication and classification. -/
theorem analyze_frame_no_content_rows (path : String) (data : List Nat)
    (width height : Nat) (cfg : ExtractionConfig)
    (hw : 0 < width) (hh : 0 < height) (hlen : data.length = width * height)
    (hnb : brightFraction data width height cfg < cfg.blank_threshold)
    (hnc : ∀ y, y < height → isContentRow data width cfg y = false) :
    (analyze_frame path data width height cfg).is_blank = false ∧
    (analyze_frame path data width height cfg).top_margin = 1 ∧
    (analyze_frame path data width height cfg).bottom_margin =
      ((height : ℚ) - 1) / height ∧
    (analyze_frame path data width height cfg).content_hash = 0 ∧
    (cfg.edge_margin_threshold ≤ ((height : ℚ) - 1) / height →
      (analyze_frame path data width height cfg).is_fully_visible = true ∧
      passesVisibilityFilter (analyze_frame path data width height cfg) = true) := by
  have hnb' : ¬ (cfg.blank_threshold ≤ brightFraction data width height cfg) :=
    not_le.mpr hnb
  have hrows : contentRowsOf data width height cfg = [] := by
    rw [contentRowsOf, List.filter_eq_nil_iff]
    intro y hy
    rw [hnc y (List.mem_range.mp hy)]
    exact Bool.false_ne_true
  have hmin : yMinOf data width height cfg = height := by
    rw [yMinOf, hrows]; rfl
  have hmax : yMaxOf data width height cfg = 0 := by
    rw [yMaxOf, hrows]; rfl
  have hpix : contentPixelsOf data width height cfg = [] := by
    rw [contentPixelsOf, hmin, hmax, if_neg (by omega)]
  have hcast : (height : ℚ) ≠ 0 := by
    exact_mod_cast Nat.pos_iff_ne_zero.mp hh
  have hbot : ((height : ℚ) - 1 - (yMaxOf data width height cfg : ℚ)) / height =
      ((height : ℚ) - 1) / height := by
    rw [hmax]; norm_num
  rw [analyze_frame_nonblank path data width height cfg hnb']
  refine ⟨rfl, ?_, ?_, ?_, ?_⟩
  · show (yMinOf data width height cfg : ℚ) / height = 1
    rw [hmin]
    exact div_self hcast
  · exact hbot
  · show (if (contentPixelsOf data width height cfg).length > 0 then _ else (0 : ℚ)) = 0
    rw [hpix]
    norm_num
  · intro hthr
    have hone : ((height : ℚ) - 1) / height ≤ 1 := by
      rw [div_le_one (by positivity)]
      linarith
    have hvis : decide (cfg.edge_margin_threshold ≤
          (yMinOf data width height cfg : ℚ) / height ∧
        cfg.edge_margin_threshold ≤
          ((height : ℚ) - 1 - (yMaxOf data width height cfg : ℚ)) / height) = true := by
      apply decide_eq_true
      constructor
      · rw [hmin, div_self hcast]
        linarith
      · rw [hbot]
        exact hthr
    exact ⟨hvis, by simp [passesVisibilityFilter, hvis]⟩

/-- C10 (witness): the theorem applied to a uniform mid-gray 2×3 buffer
(luminance 210: neither bright nor dark), which indeed comes out non-blank,
content-free, and fully visible. -/
theorem analyze_frame_no_content_rows_witness :
    (analyze_frame "g" [210, 210, 210, 210, 210, 210] 2 3 {}).is_blank = false ∧
    (analyze_frame "g" [210, 210, 210, 210, 210, 210] 2 3 {}).top_margin = 1 ∧
    (analyze_frame "g" [210, 210, 210, 210, 210, 210] 2 3 {}).bottom_margin =
      ((3 : ℚ) - 1) / 3 ∧
    (analyze_frame "g" [210, 210, 210, 210, 210, 210] 2 3 {}).content_hash = 0 ∧
    (({} : ExtractionConfig).edge_margin_threshold ≤ ((3 : ℚ) - 1) / 3 →
      (analyze_frame "g" [210, 210, 210, 210, 210, 210] 2 3 {}).is_fully_visible
          = true ∧
      passesVisibilityFilter
        (analyze_frame "g" [210, 210, 210, 210, 210, 210] 2 3 {}) = true) := by
  apply analyze_frame_no_content_rows "g" _ 2 3 {} (by norm_num) (by norm_num)
    (by decide)
  · norm_num [brightFraction, List.filter]
  · intro y hy
    interval_cases y <;>
      norm_num [isContentRow, rowDarkCount, List.range, List.filter, List.range.loop]

/-! ### C8: frame deduplication -/

/-- Unfolding of the gap splitter on a cons cell. -/
theorem specSplitGaps_cons (x : FrameAnalysis × Nat)
    (l : List (FrameAnalysis × Nat)) :
    specSplitGaps (x :: l) =
      match specSplitGaps l with
      | [] => [[x]]
      | [] :: rest => [x] :: rest
      | (y :: g) :: rest =>
          if (y.2 : ℤ) - (x.2 : ℤ) > 1 then [x] :: (y :: g) :: rest
          else (x :: y :: g) :: rest := rfl

/-- Gap-splitter step when the remainder has no groups. -/
theorem specSplitGaps_cons_of_nil {l : List (FrameAnalysis × Nat)}
    (x : FrameAnalysis × Nat) (hS : specSplitGaps l = []) :
    specSplitGaps (x :: l) = [[x]] := by
  rw [specSplitGaps_cons, hS]

/-- Gap-splitter step when the remainder starts with a (nonempty) group. -/
theorem specSplitGaps_cons_of_cons {l rest : List (FrameAnalysis × Nat)}
    {gs : List (List (FrameAnalysis × Nat))} (x y : FrameAnalysis × Nat)
    (hS : specSplitGaps l = (y :: rest) :: gs) :
    specSplitGaps (x :: l) =
      if (y.2 : ℤ) - (x.2 : ℤ) > 1 then [x] :: (y :: rest) :: gs
      else (x :: y :: rest) :: gs := by
  rw [specSplitGaps_cons, hS]

/-- The gap splitter produces no empty group. -/
theorem specSplitGaps_ne_nil :
    ∀ (l : List (FrameAnalysis × Nat)) (g : List (FrameAnalysis × Nat)),
      g ∈ specSplitGaps l → g ≠ [] := by
  intro l
  induction l with
  | nil => intro g hg; cases hg
  | cons x l ih =>
    intro g hg
    rcases hS : specSplitGaps l with _ | ⟨g1, gs⟩
    · rw [specSplitGaps_cons_of_nil x hS] at hg
      rcases List.mem_cons.mp hg with rfl | h
      · exact List.cons_ne_nil x []
      · cases h
    · rcases g1 with _ | ⟨y, g1'⟩
      · exact absurd rfl (ih [] (hS ▸ List.mem_cons_self [] gs))
      · rw [specSplitGaps_cons_of_cons x y hS] at hg
        by_cases hgap : (y.2 : ℤ) - (x.2 : ℤ) > 1
        · rw [if_pos hgap] at hg
          rcases List.mem_cons.mp hg with rfl | h
          · exact List.cons_ne_nil x []
          · exact ih g (hS ▸ h)
        · rw [if_neg hgap] at hg
          rcases List.mem_cons.mp hg with rfl | h
          · exact List.cons_ne_nil x _
          · exact ih g (hS ▸ List.mem_cons_of_mem (y :: g1') h)

/-- The grouping loop agrees with the gap splitter, merged through
`specMerge`. -/
theorem gapGroupsAux_spec :
    ∀ (rest : List (FrameAnalysis × Nat)) (h : FrameAnalysis)
      (tl : List FrameAnalysis) (prevIdx : Nat),
      gapGroupsAux h tl prevIdx rest =
        specMerge h tl prevIdx (specSplitGaps rest) := by
  intro rest
  induction rest with
  | nil => intro h tl prevIdx; rfl
  | cons x rest2 ih =>
    obtain ⟨f', i'⟩ := x
    intro h tl prevIdx
    have hstep : gapGroupsAux h tl prevIdx ((f', i') :: rest2) =
        if (i' : ℤ) - (prevIdx : ℤ) ≤ 1 then
          gapGroupsAux h (tl ++ [f']) i' rest2
        else (h, tl) :: gapGroupsAux f' [] i' rest2 := rfl
    rw [hstep]
    rcases hS : specSplitGaps rest2 with _ | ⟨g1, gs⟩
    · rw [specSplitGaps_cons_of_nil (f', i') hS]
      by_cases hc : (i' : ℤ) - (prevIdx : ℤ) ≤ 1
      · rw [if_pos hc, ih, hS]
        simp only [specMerge]
        rw [if_pos hc]
        simp
      · rw [if_neg hc, ih, hS]
        simp only [specMerge]
        rw [if_neg hc]
        simp
    · rcases g1 with _ | ⟨⟨f₁, i₁⟩, gtail⟩
      · exact absurd rfl (specSplitGaps_ne_nil rest2 []
          (hS ▸ List.mem_cons_self [] gs))
      · rw [specSplitGaps_cons_of_cons (f', i') (f₁, i₁) hS]
        by_cases hgap : (i₁ : ℤ) - (i' : ℤ) > 1
        · rw [if_pos hgap]
          simp only [specMerge]
          have hnear : ¬ ((i₁ : ℤ) - (i' : ℤ) ≤ 1) := by omega
          by_cases hc : (i' : ℤ) - (prevIdx : ℤ) ≤ 1
          · rw [if_pos hc, if_pos hc, ih, hS]
            simp only [specMerge]
            rw [if_neg hnear]
            simp [groupHT]
          · rw [if_neg hc, if_neg hc, ih, hS]
            simp only [specMerge]
            rw [if_neg hnear]
            simp [groupHT]
        · rw [if_neg hgap]
          simp only [specMerge]
          have hnear : (i₁ : ℤ) - (i' : ℤ) ≤ 1 := by omega
          by_cases hc : (i' : ℤ) - (prevIdx : ℤ) ≤ 1
          · rw [if_pos hc, if_pos hc, ih, hS]
            simp only [specMerge]
            rw [if_pos hnear]
            simp
          · rw [if_neg hc, if_neg hc, ih, hS]
            simp only [specMerge]
            rw [if_pos hnear]
            simp

/-- Folding `argAux` from a `some` start keeps a plain first-minimum fold. -/
theorem foldl_argAux_some (r : FrameAnalysis → FrameAnalysis → Prop)
    [DecidableRel r] :
    ∀ (tl : List FrameAnalysis) (b : FrameAnalysis),
      tl.foldl (List.argAux r) (some b) =
        some (tl.foldl (fun best fr => if r fr best then fr else best) b) := by
  intro tl
  induction tl with
  | nil => intro b; rfl
  | cons x tl ih =>
    intro b
    have hstep : List.argAux r (some b) x = some (if r x b then x else b) := by
      by_cases h : r x b
      · show (if r x b then some x else some b) = _
        rw [if_pos h, if_pos h]
      · show (if r x b then some x else some b) = _
        rw [if_neg h, if_neg h]
    calc (x :: tl).foldl (List.argAux r) (some b)
        = tl.foldl (List.argAux r) (some (if r x b then x else b)) := by
          rw [List.foldl_cons, hstep]
      _ = some (tl.foldl (fun best fr => if r fr best then fr else best)
            (if r x b then x else b)) := ih _
      _ = some ((x :: tl).foldl
            (fun best fr => if r fr best then fr else best) b) := by
          rw [List.foldl_cons]

/-- `argmin` over a nonempty group is exactly the selection loop of
`deduplicate_frames`. -/
theorem argmin_cons_eq_bestOfGroup (h : FrameAnalysis)
    (tl : List FrameAnalysis) :
    (h :: tl).argmin (fun f => |f.top_margin - f.bottom_margin|) =
      some (bestOfGroup h tl) := by
  rw [List.argmin, List.foldl_cons]
  exact foldl_argAux_some _ tl h

/-- Representative selection over nonempty groups is the mapped selection
loop. -/
theorem filterMap_specRepresentative (gs : List (List (FrameAnalysis × Nat)))
    (hne : ∀ g ∈ gs, g ≠ []) :
    gs.filterMap specRepresentative =
      gs.map (fun g => bestOfGroup (groupHT g).1 (groupHT g).2) := by
  induction gs with
  | nil => rfl
  | cons g gs ih =>
    rcases g with _ | ⟨⟨f₁, i₁⟩, gtail⟩
    · exact absurd rfl (hne [] (List.mem_cons_self [] gs))
    · rw [List.filterMap_cons, List.map_cons]
      have hrep : specRepresentative ((f₁, i₁) :: gtail) =
          some (bestOfGroup f₁ (gtail.map Prod.fst)) := by
        rw [specRepresentative, List.map_cons]
        exact argmin_cons_eq_bestOfGroup f₁ (gtail.map Prod.fst)
      rw [hrep, ih (fun g hg => hne g (List.mem_cons_of_mem _ hg))]
      rfl

/-- C8: `deduplicate_frames` equals its specification reading — split the
(frame, original-index) stream into a new group exactly where consecutive
original indices differ by more than 1, and pick from each group the member
with minimal `|top_margin - bottom_margin|` (`argmin` keeps the earliest on
ties), one representative per group in order.  In particular, indices
`[5,6,7]` collapse to the single best-centered member, and indices `[3,10]`
give two groups. -/
theorem deduplicate_frames_eq_spec :
    (∀ (frames : List FrameAnalysis) (original_indices : List Nat),
      deduplicate_frames frames original_indices =
        specDeduplicate frames original_indices) ∧
    deduplicate_frames
        [mkFrame "a" 0.3 0.2, mkFrame "b" 0.25 0.25, mkFrame "c" 0.2 0.3]
        [5, 6, 7] = [mkFrame "b" 0.25 0.25] ∧
    deduplicate_frames [mkFrame "a" 0.3 0.2, mkFrame "b" 0.25 0.25] [3, 10] =
      [mkFrame "a" 0.3 0.2, mkFrame "b" 0.25 0.25] := by
  refine ⟨?_, ?_, ?_⟩
  · intro frames original_indices
    unfold deduplicate_frames specDeduplicate
    rcases hz : frames.zip original_indices with _ | ⟨⟨f, i⟩, rest⟩
    · rfl
    · show (gapGroupsAux f [] i rest).map (fun g => bestOfGroup g.1 g.2) =
        List.filterMap specRepresentative (specSplitGaps ((f, i) :: rest))
      rw [gapGroupsAux_spec]
      rcases hS : specSplitGaps rest with _ | ⟨g1, gs⟩
      · rw [specSplitGaps_cons_of_nil (f, i) hS]
        simp only [specMerge]
        rw [List.filterMap_cons]
        have h1 : specRepresentative [(f, i)] = some (bestOfGroup f []) := by
          rw [specRepresentative, List.map_cons, List.map_nil]
          exact argmin_cons_eq_bestOfGroup f []
        rw [h1, List.filterMap_nil, List.map_cons, List.map_nil]
      · rcases g1 with _ | ⟨⟨f₁, i₁⟩, gtail⟩
        · exact absurd rfl (specSplitGaps_ne_nil rest []
            (hS ▸ List.mem_cons_self [] gs))
        · have hgs : ∀ g ∈ gs, g ≠ [] := fun g hg =>
            specSplitGaps_ne_nil rest g (hS ▸ List.mem_cons_of_mem _ hg)
          rw [specSplitGaps_cons_of_cons (f, i) (f₁, i₁) hS]
          by_cases hgap : (i₁ : ℤ) - (i : ℤ) > 1
          · rw [if_pos hgap]
            simp only [specMerge]
            have hfar : ¬ ((i₁ : ℤ) - (i : ℤ) ≤ 1) := by omega
            rw [if_neg hfar]
            rw [List.filterMap_cons, List.filterMap_cons]
            have h1 : specRepresentative [(f, i)] = some (bestOfGroup f []) := by
              rw [specRepresentative, List.map_cons, List.map_nil]
              exact argmin_cons_eq_bestOfGroup f []
            have h2 : specRepresentative ((f₁, i₁) :: gtail) =
                some (bestOfGroup f₁ (gtail.map Prod.fst)) := by
              rw [specRepresentative, List.map_cons]
              exact argmin_cons_eq_bestOfGroup f₁ (gtail.map Prod.fst)
            rw [h1, h2, filterMap_specRepresentative gs hgs]
            simp [List.map_map, groupHT]
          · rw [if_neg hgap]
            have hnear : (i₁ : ℤ) - (i : ℤ) ≤ 1 := by omega
            simp only [specMerge]
            rw [if_pos hnear]
            rw [List.filterMap_cons]
            have h1 : specRepresentative ((f, i) :: (f₁, i₁) :: gtail) =
                some (bestOfGroup f (f₁ :: gtail.map Prod.fst)) := by
              rw [specRepresentative, List.map_cons, List.map_cons]
              exact argmin_cons_eq_bestOfGroup f (f₁ :: gtail.map Prod.fst)
            rw [h1, filterMap_specRepresentative gs hgs]
            simp [List.map_map, groupHT]
  · norm_num [deduplicate_frames, gapGroupsAux, bestOfGroup, mkFrame,
      List.zip, List.zipWith]
  · norm_num [deduplicate_frames, gapGroupsAux, bestOfGroup, mkFrame,
      List.zip, List.zipWith]

/-! ### C3: live-dispatch variant vs offline simulator -/

/-- The key-down keys of a paired char dispatch. -/
theorem keysDown_dispatch_char (k : String) :
    ((dispatch_char k).filter (fun e => e.type = "keyDown")).map
      (fun e => e.key) = [k] := by
  simp [dispatch_char]

/-- The key-down keys of a paired named-key dispatch. -/
theorem keysDown_dispatch_key (k : String) :
    ((dispatch_key k).filter (fun e => e.type = "keyDown")).map
      (fun e => e.key) = [k] := by
  simp [dispatch_key]

/-- Each `cdpCharStep` dispatches either the intended character alone or the
always-corrected triple wrong-key, Backspace, intended key. -/
theorem cdpCharStep_shape (r : Rng) (tr : ℚ) (c : Char) (prev : Option Char)
    (s : RngState) :
    (∃ s', cdpCharStep r tr c prev s =
      (dispatch_char (String.singleton c), s')) ∨
    (∃ n s', cdpCharStep r tr c prev s =
      (dispatch_char (String.singleton (nearby_choice c n)) ++
        dispatch_key "Backspace" ++ dispatch_char (String.singleton c), s')) := by
  unfold cdpCharStep
  simp only [takeIki, takeUnif, takePick, nearby_key]
  split_ifs <;>
    first
      | exact Or.inl ⟨_, rfl⟩
      | exact Or.inr ⟨_, _, rfl⟩

/-- Unfolding of the dispatch loop on a cons cell. -/
theorem human_type_cdp_aux_cons (r : Rng) (tr : ℚ) (c : Char)
    (rest : List Char) (prev : Option Char) (s : RngState) :
    human_type_cdp_aux r tr (c :: rest) prev s =
      (cdpCharStep r tr c prev s).1 ++
        human_type_cdp_aux r tr rest (some c) (cdpCharStep r tr c prev s).2 := rfl

/-- C3 (amended): for every text, typo rate, and random stream, the
key-down trace of `human_type_cdp` decomposes into one block per input
character, where each block is either the intended character alone or
wrong-key, Backspace, intended character: the live variant rolls the same
typo check per character but always performs the full correction, with no
correction-rate decision at all (it has no such parameter), so it does not
reproduce the offline simulator's correction behavior. -/
theorem human_type_cdp_blocks (r : Rng) (tr : ℚ) (text : String) :
    ∃ blocks : List (List String),
      ((human_type_cdp r text tr).filter
        (fun e => e.type = "keyDown")).map (fun e => e.key) = blocks.flatten ∧
      List.Forall₂ (fun (c : Char) (blk : List String) =>
        blk = [String.singleton c] ∨
        ∃ n, blk = [String.singleton (nearby_choice c n), "Backspace",
          String.singleton c]) text.data blocks := by
  suffices h : ∀ (cs : List Char) (prev : Option Char) (s : RngState),
      ∃ blocks : List (List String),
        ((human_type_cdp_aux r tr cs prev s).filter
          (fun e => e.type = "keyDown")).map (fun e => e.key) = blocks.flatten ∧
        List.Forall₂ (fun (c : Char) (blk : List String) =>
          blk = [String.singleton c] ∨
          ∃ n, blk = [String.singleton (nearby_choice c n), "Backspace",
            String.singleton c]) cs blocks by
    exact h text.data none RngState.initial
  intro cs
  induction cs with
  | nil =>
    intro prev s
    exact ⟨[], rfl, List.Forall₂.nil⟩
  | cons c rest ih =>
    intro prev s
    obtain ⟨blocks, hkeys, hforall⟩ := ih (some c) (cdpCharStep r tr c prev s).2
    rw [human_type_cdp_aux_cons]
    rcases cdpCharStep_shape r tr c prev s with ⟨s', hstep⟩ | ⟨n, s', hstep⟩
    · refine ⟨[String.singleton c] :: blocks, ?_, List.Forall₂.cons (Or.inl rfl) hforall⟩
      rw [hstep]
      simp only [List.filter_append, List.map_append, List.flatten_cons]
      rw [keysDown_dispatch_char]
      rw [hstep] at hkeys
      rw [hkeys]
    · refine ⟨[String.singleton (nearby_choice c n), "Backspace",
        String.singleton c] :: blocks, ?_, List.Forall₂.cons (Or.inr ⟨n, rfl⟩) hforall⟩
      rw [hstep]
      simp only [List.filter_append, List.map_append, List.flatten_cons]
      rw [keysDown_dispatch_char, keysDown_dispatch_key, keysDown_dispatch_char]
      rw [hstep] at hkeys
      rw [hkeys]
      rfl

/-- C3 (counterexample): with identical stream draws (all uniforms `1/2`,
choice index 0) and corresponding parameters (`typo_rate = 1` in both; the
simulator's `typo_correction_rate = 0`, a value its config admits), the
simulator types just the wrong key `"q"` and leaves the typo uncorrected,
while the live variant dispatches `"q"`, `"Backspace"`, `"a"` — the two
variants make different correction decisions on the same draws, refuting
behavioral parity. -/
theorem human_type_cdp_parity_cex :
    (simulate_typing "a" (some cfgNoCorrection) rngHalf 0).map
      (fun e => e.key) = ["q"] ∧
    ((human_type_cdp rngHalf "a" 1).filter
      (fun e => e.type = "keyDown")).map (fun e => e.key) =
      ["q", "Backspace", "a"] ∧
    (simulate_typing "a" (some cfgNoCorrection) rngHalf 0).map
      (fun e => e.key) ≠
    ((human_type_cdp rngHalf "a" 1).filter
      (fun e => e.type = "keyDown")).map (fun e => e.key) := by
  refine ⟨?_, ?_, ?_⟩
  · norm_num [simulate_typing, simulate_typing_aux, typeCharStep, compute_delay,
      cfgNoCorrection, rngHalf, takeUnif, takeIki, takePick, nearby_key,
      nearby_choice, qwertyNeighbors, QWERTY_NEIGHBORS, SENTENCE_ENDINGS,
      WORD_BOUNDARIES, RngState.initial, String.data]
    decide
  · norm_num [human_type_cdp, human_type_cdp_aux, cdpCharStep, rngHalf,
      takeUnif, takeIki, takePick, nearby_key, nearby_choice, qwertyNeighbors,
      QWERTY_NEIGHBORS, SENTENCE_ENDINGS, RngState.initial, dispatch_char,
      dispatch_key, List.filter, String.data]
    decide
  · intro h
    rw [show (simulate_typing "a" (some cfgNoCorrection) rngHalf 0).map
        (fun e => e.key) = ["q"] from ?_, show ((human_type_cdp rngHalf "a" 1).filter
        (fun e => e.type = "keyDown")).map (fun e => e.key) =
        ["q", "Backspace", "a"] from ?_] at h
    · exact absurd h (by decide)
    · norm_num [human_type_cdp, human_type_cdp_aux, cdpCharStep, rngHalf,
        takeUnif, takeIki, takePick, nearby_key, nearby_choice, qwertyNeighbors,
        QWERTY_NEIGHBORS, SENTENCE_ENDINGS, RngState.initial, dispatch_char,
        dispatch_key, List.filter, String.data]
      decide
    · norm_num [simulate_typing, simulate_typing_aux, typeCharStep, compute_delay,
        cfgNoCorrection, rngHalf, takeUnif, takeIki, takePick, nearby_key,
        nearby_choice, qwertyNeighbors, QWERTY_NEIGHBORS, SENTENCE_ENDINGS,
        WORD_BOUNDARIES, RngState.initial, String.data]
      decide

/-! ### C5: keystroke-log invariants -/

/-- `compute_delay` clamps every per-character delay to at least 10 ms,
whatever the sampled IKI, the pause draws, and the config. -/
theorem compute_delay_ge_ten (c : Char) (prev : Option Char)
    (cfg : HumanTyperConfig) (r : Rng) (s : RngState) :
    10 ≤ (compute_delay c prev cfg r s).1 := by
  unfold compute_delay
  simp only [takeIki, takeUnif]
  split_ifs <;> exact le_max_right _ _

/-- Unfolding of the simulator loop on a cons cell. -/
theorem simulate_typing_aux_cons (cfg : HumanTyperConfig) (r : Rng) (c : Char)
    (rest : List Char) (prev : Option Char) (t : ℚ) (s : RngState) :
    simulate_typing_aux cfg r (c :: rest) prev t s =
      (typeCharStep cfg r c prev t s).1 ++
        simulate_typing_aux cfg r rest (some c)
          (typeCharStep cfg r c prev t s).2.1
          (typeCharStep cfg r c prev t s).2.2 := rfl

/-- The three possible shapes of a simulator step, with explicit event
times: clean keystroke, uncorrected typo, or corrected typo triple. -/
theorem typeCharStep_cases (cfg : HumanTyperConfig) (r : Rng) (c : Char)
    (prev : Option Char) (t : ℚ) (s : RngState) :
    (∃ s', typeCharStep cfg r c prev t s =
      ([⟨String.singleton c, t + (compute_delay c prev cfg r s).1,
          false, false⟩],
        t + (compute_delay c prev cfg r s).1, s')) ∨
    (∃ n s', typeCharStep cfg r c prev t s =
      ([⟨String.singleton (nearby_choice c n),
          t + (compute_delay c prev cfg r s).1, true, false⟩],
        t + (compute_delay c prev cfg r s).1, s')) ∨
    (∃ n k1 k2 s', typeCharStep cfg r c prev t s =
      ([⟨String.singleton (nearby_choice c n),
          t + (compute_delay c prev cfg r s).1, true, false⟩,
        ⟨"Backspace", t + (compute_delay c prev cfg r s).1 +
          (200 + r.unif k1 * 300), false, true⟩,
        ⟨String.singleton c, t + (compute_delay c prev cfg r s).1 +
          (200 + r.unif k1 * 300) + (100 + r.unif k2 * 100), false, false⟩],
        t + (compute_delay c prev cfg r s).1 + (200 + r.unif k1 * 300) +
          (100 + r.unif k2 * 100), s')) := by
  unfold typeCharStep
  simp only [takeUnif, takePick, nearby_key]
  split_ifs <;>
    first
      | exact Or.inl ⟨_, rfl⟩
      | exact Or.inr (Or.inl ⟨_, _, rfl⟩)
      | exact Or.inr (Or.inr ⟨_, _, _, _, rfl⟩)

/-- Each simulator step emits events strictly after the incoming clock, in
strictly increasing order, ending no later than the outgoing clock, which
itself strictly advances — given uniform draws that are nonnegative. -/
theorem typeCharStep_bounds (cfg : HumanTyperConfig) (r : Rng) (c : Char)
    (prev : Option Char) (t : ℚ) (s : RngState)
    (hu0 : ∀ n, 0 ≤ r.unif n) :
    (∀ e ∈ (typeCharStep cfg r c prev t s).1,
      t < e.time ∧ e.time ≤ (typeCharStep cfg r c prev t s).2.1) ∧
    List.Chain' (fun a b : KeystrokeEvent => a.time < b.time)
      (typeCharStep cfg r c prev t s).1 ∧
    t < (typeCharStep cfg r c prev t s).2.1 := by
  have hd := compute_delay_ge_ten c prev cfg r s
  rcases typeCharStep_cases cfg r c prev t s with
    ⟨s', hstep⟩ | ⟨n, s', hstep⟩ | ⟨n, k1, k2, s', hstep⟩
  · rw [hstep]
    refine ⟨?_, List.chain'_singleton _, ?_⟩
    · intro e he
      rcases List.mem_cons.mp he with rfl | he
      · constructor
        · show t < t + (compute_delay c prev cfg r s).1
          linarith
        · show t + (compute_delay c prev cfg r s).1 ≤
            t + (compute_delay c prev cfg r s).1
          exact le_refl _
      · cases he
    · show t < t + (compute_delay c prev cfg r s).1
      linarith
  · rw [hstep]
    refine ⟨?_, List.chain'_singleton _, ?_⟩
    · intro e he
      rcases List.mem_cons.mp he with rfl | he
      · constructor
        · show t < t + (compute_delay c prev cfg r s).1
          linarith
        · show t + (compute_delay c prev cfg r s).1 ≤
            t + (compute_delay c prev cfg r s).1
          exact le_refl _
      · cases he
    · show t < t + (compute_delay c prev cfg r s).1
      linarith
  · have h1 : (0 : ℚ) ≤ r.unif k1 := hu0 k1
    have h2 : (0 : ℚ) ≤ r.unif k2 := hu0 k2
    rw [hstep]
    refine ⟨?_, ?_, ?_⟩
    · intro e he
      rcases List.mem_cons.mp he with rfl | he
      · constructor
        · show t < t + (compute_delay c prev cfg r s).1
          linarith
        · show t + (compute_delay c prev cfg r s).1 ≤
            t + (compute_delay c prev cfg r s).1 + (200 + r.unif k1 * 300) +
              (100 + r.unif k2 * 100)
          linarith
      rcases List.mem_cons.mp he with rfl | he
      · constructor
        · show t < t + (compute_delay c prev cfg r s).1 +
            (200 + r.unif k1 * 300)
          linarith
        · show t + (compute_delay c prev cfg r s).1 + (200 + r.unif k1 * 300) ≤
            t + (compute_delay c prev cfg r s).1 + (200 + r.unif k1 * 300) +
              (100 + r.unif k2 * 100)
          linarith
      rcases List.mem_cons.mp he with rfl | he
      · constructor
        · show t < t + (compute_delay c prev cfg r s).1 +
            (200 + r.unif k1 * 300) + (100 + r.unif k2 * 100)
          linarith
        · exact le_refl _
      · cases he
    · refine List.chain'_cons.mpr ⟨?_, List.chain'_cons.mpr ⟨?_,
        List.chain'_singleton _⟩⟩
      · show t + (compute_delay c prev cfg r s).1 <
          t + (compute_delay c prev cfg r s).1 + (200 + r.unif k1 * 300)
        linarith
      · show t + (compute_delay c prev cfg r s).1 + (200 + r.unif k1 * 300) <
          t + (compute_delay c prev cfg r s).1 + (200 + r.unif k1 * 300) +
            (100 + r.unif k2 * 100)
        linarith
    · show t < t + (compute_delay c prev cfg r s).1 + (200 + r.unif k1 * 300) +
        (100 + r.unif k2 * 100)
      linarith

/-- The simulator log's events all lie strictly after the incoming clock
and form a strictly increasing time chain. -/
theorem simulate_typing_aux_times (cfg : HumanTyperConfig) (r : Rng)
    (hu0 : ∀ n, 0 ≤ r.unif n) :
    ∀ (cs : List Char) (prev : Option Char) (t : ℚ) (s : RngState),
      (∀ e ∈ simulate_typing_aux cfg r cs prev t s, t < e.time) ∧
      List.Chain' (fun a b : KeystrokeEvent => a.time < b.time)
        (simulate_typing_aux cfg r cs prev t s) := by
  intro cs
  induction cs with
  | nil => intro prev t s; exact ⟨fun e he => absurd he (List.not_mem_nil e),
      List.chain'_nil⟩
  | cons c rest ih =>
    intro prev t s
    obtain ⟨hmem, hchain, hlt⟩ := typeCharStep_bounds cfg r c prev t s hu0
    obtain ⟨ihmem, ihchain⟩ := ih (some c) (typeCharStep cfg r c prev t s).2.1
      (typeCharStep cfg r c prev t s).2.2
    rw [simulate_typing_aux_cons]
    constructor
    · intro e he
      rcases List.mem_append.mp he with he | he
      · exact (hmem e he).1
      · exact lt_trans hlt (ihmem e he)
    · rw [List.chain'_append]
      refine ⟨hchain, ihchain, fun x hx y hy => ?_⟩
      have hxle := (hmem x (List.mem_of_mem_getLast? hx)).2
      have hyt := ihmem y (List.mem_of_mem_head? hy)
      linarith

/-- With the correction rate pinned to 1 and uniform draws below 1, every
simulator step is either a clean intended keystroke or the corrected triple
wrong key, Backspace, intended key. -/
theorem typeCharStep_corrected (cfg : HumanTyperConfig) (r : Rng) (c : Char)
    (prev : Option Char) (t : ℚ) (s : RngState)
    (hcorr : cfg.typo_correction_rate = 1) (hu1 : ∀ n, r.unif n < 1) :
    (∃ t1 s', typeCharStep cfg r c prev t s =
      ([⟨String.singleton c, t1, false, false⟩], t1, s')) ∨
    (∃ n t1 t2 t3 s', typeCharStep cfg r c prev t s =
      ([⟨String.singleton (nearby_choice c n), t1, true, false⟩,
        ⟨"Backspace", t2, false, true⟩,
        ⟨String.singleton c, t3, false, false⟩], t3, s')) := by
  unfold typeCharStep
  simp only [takeUnif, takePick, nearby_key, hcorr]
  split_ifs with h1 h2
  · exact Or.inr ⟨_, _, _, _, _, rfl⟩
  · exact absurd (hu1 _) (by simpa using h2)
  · exact Or.inl ⟨_, _, rfl⟩

/-- Every `is_typo` event in the simulator log under correction rate 1 is
followed at the next two positions by the Backspace correction and the
originally intended character. -/
theorem simulate_typing_aux_typo_triples (cfg : HumanTyperConfig) (r : Rng)
    (hcorr : cfg.typo_correction_rate = 1) (hu1 : ∀ n, r.unif n < 1) :
    ∀ (cs : List Char) (prev : Option Char) (t : ℚ) (s : RngState)
      (i : Nat) (e : KeystrokeEvent),
      (simulate_typing_aux cfg r cs prev t s).get? i = some e →
      e.is_typo = true →
      ∃ (c : Char) (bs cr : KeystrokeEvent) (n : Nat),
        c ∈ cs ∧
        (simulate_typing_aux cfg r cs prev t s).get? (i + 1) = some bs ∧
        bs.key = "Backspace" ∧ bs.is_correction = true ∧ bs.is_typo = false ∧
        (simulate_typing_aux cfg r cs prev t s).get? (i + 2) = some cr ∧
        cr.key = String.singleton c ∧ cr.is_typo = false ∧
        cr.is_correction = false ∧
        e.key = String.singleton (nearby_choice c n) := by
  intro cs
  induction cs with
  | nil =>
    intro prev t s i e hget
    rw [show simulate_typing_aux cfg r [] prev t s = [] from rfl] at hget
    simp at hget
  | cons c rest ih =>
    intro prev t s i e hget htypo
    rw [simulate_typing_aux_cons] at hget ⊢
    rcases typeCharStep_corrected cfg r c prev t s hcorr hu1 with
      ⟨t1, s', hstep⟩ | ⟨n, t1, t2, t3, s', hstep⟩
    · rw [hstep] at hget ⊢
      match i, hget with
      | 0, hget =>
        simp only [List.get?] at hget
        cases hget
        exact absurd htypo (by simp)
      | Nat.succ j, hget =>
        simp only [List.cons_append, List.get?] at hget ⊢
        obtain ⟨c', bs, cr, n', hc', h1, h2, h3, h4, h5, h6, h7, h8, h9⟩ :=
          ih (some c) t1 s' j e hget htypo
        exact ⟨c', bs, cr, n', List.mem_cons_of_mem c hc',
          h1, h2, h3, h4, h5, h6, h7, h8, h9⟩
    · rw [hstep] at hget ⊢
      match i, hget with
      | 0, hget =>
        simp only [List.get?] at hget
        cases hget
        refine ⟨c, _, _, n, List.mem_cons_self c rest, rfl, rfl, rfl, rfl,
          rfl, rfl, rfl, rfl, rfl⟩
      | 1, hget =>
        simp only [List.get?] at hget
        cases hget
        exact absurd htypo (by simp)
      | 2, hget =>
        simp only [List.get?] at hget
        cases hget
        exact absurd htypo (by simp)
      | Nat.succ (Nat.succ (Nat.succ j)), hget =>
        simp only [List.cons_append, List.get?] at hget ⊢
        obtain ⟨c', bs, cr, n', hc', h1, h2, h3, h4, h5, h6, h7, h8, h9⟩ :=
          ih (some c) t3 s' j e hget htypo
        exact ⟨c', bs, cr, n', List.mem_cons_of_mem c hc',
          h1, h2, h3, h4, h5, h6, h7, h8, h9⟩

/-- C5: for every text, config, start time, and random stream with uniform
draws in `[0,1)`, the keystroke log of `simulate_typing` has strictly
increasing timestamps (each per-character delay is clamped to at least
10 ms); and when `typo_correction_rate = 1`, every `is_typo` event at
position `i` is immediately followed by a `Backspace` `is_correction` event
at `i+1` and by the originally intended character of the text (unflagged) at
`i+2`, the typo key being a substitute drawn for that same character. -/
theorem simulate_typing_log_invariants (text : String)
    (cfg : HumanTyperConfig) (r : Rng) (t0 : ℚ)
    (hu0 : ∀ n, 0 ≤ r.unif n) (hu1 : ∀ n, r.unif n < 1) :
    List.Chain' (fun a b : KeystrokeEvent => a.time < b.time)
      (simulate_typing text (some cfg) r t0) ∧
    (cfg.typo_correction_rate = 1 →
      ∀ (i : Nat) (e : KeystrokeEvent),
        (simulate_typing text (some cfg) r t0).get? i = some e →
        e.is_typo = true →
        ∃ (c : Char) (bs cr : KeystrokeEvent) (n : Nat),
          c ∈ text.data ∧
          (simulate_typing text (some cfg) r t0).get? (i + 1) = some bs ∧
          bs.key = "Backspace" ∧ bs.is_correction = true ∧ bs.is_typo = false ∧
          (simulate_typing text (some cfg) r t0).get? (i + 2) = some cr ∧
          cr.key = String.singleton c ∧ cr.is_typo = false ∧
          cr.is_correction = false ∧
          e.key = String.singleton (nearby_choice c n)) := by
  constructor
  · exact (simulate_typing_aux_times cfg r hu0 text.data none t0
      RngState.initial).2
  · intro hcorr i e hget htypo
    exact simulate_typing_aux_typo_triples cfg r hcorr hu1 text.data none t0
      RngState.initial i e hget htypo

/-- C5 (witness): the invariants applied to `"ab."` under a config with
certain, always-corrected typos and the concrete half-stream. -/
theorem simulate_typing_log_invariants_witness :
    List.Chain' (fun a b : KeystrokeEvent => a.time < b.time)
      (simulate_typing "ab."
        (some { typo_rate := 1, typo_correction_rate := 1 }) rngHalf 0) ∧
    ({ typo_rate := 1, typo_correction_rate := 1 :
        HumanTyperConfig }.typo_correction_rate = 1 →
      ∀ (i : Nat) (e : KeystrokeEvent),
        (simulate_typing "ab."
          (some { typo_rate := 1, typo_correction_rate := 1 }) rngHalf 0).get? i
            = some e →
        e.is_typo = true →
        ∃ (c : Char) (bs cr : KeystrokeEvent) (n : Nat),
          c ∈ "ab.".data ∧
          (simulate_typing "ab."
            (some { typo_rate := 1, typo_correction_rate := 1 })
            rngHalf 0).get? (i + 1) = some bs ∧
          bs.key = "Backspace" ∧ bs.is_correction = true ∧ bs.is_typo = false ∧
          (simulate_typing "ab."
            (some { typo_rate := 1, typo_correction_rate := 1 })
            rngHalf 0).get? (i + 2) = some cr ∧
          cr.key = String.singleton c ∧ cr.is_typo = false ∧
          cr.is_correction = false ∧
          e.key = String.singleton (nearby_choice c n)) :=
  simulate_typing_log_invariants "ab." { typo_rate := 1, typo_correction_rate := 1 }
    rngHalf 0 (fun n => by norm_num [rngHalf]) (fun n => by norm_num [rngHalf])

/-! ### C6: majority-vote cross-validation -/

/-- First-occurrence deduplication preserves membership. -/
theorem mem_dedupF : ∀ {cs : List Char} {x : Char}, x ∈ dedupF cs ↔ x ∈ cs := by
  intro cs
  induction cs using dedupF.induct with
  | case1 => intro x; rw [dedupF]
  | case2 c cs ih =>
    intro x
    rw [dedupF]
    constructor
    · intro hx
      rcases List.mem_cons.mp hx with rfl | hx
      · exact List.mem_cons_self _ _
      · have := ih.mp hx
        exact List.mem_cons_of_mem c (List.mem_of_mem_filter this)
    · intro hx
      rcases List.mem_cons.mp hx with rfl | hx
      · exact List.mem_cons_self _ _
      · by_cases hxc : x = c
        · exact hxc ▸ List.mem_cons_self _ _
        · exact List.mem_cons_of_mem c
            (ih.mpr (List.mem_filter.mpr ⟨hx, by simpa using hxc⟩))

/-- `find?` skips a filtered-out failing element. -/
theorem find?_filter_ne (p : Char → Bool) (c : Char) (hp : p c = false) :
    ∀ (l : List Char), (l.filter (fun d => d ≠ c)).find? p = l.find? p := by
  intro l
  induction l with
  | nil => rfl
  | cons d l ih =>
    by_cases hdc : d = c
    · subst hdc
      rw [List.filter_cons_of_neg (by simp), List.find?_cons_of_neg _ (by simp [hp]), ih]
    · rw [List.filter_cons_of_pos (by simpa using hdc)]
      by_cases hpd : p d
      · rw [List.find?_cons_of_pos _ hpd, List.find?_cons_of_pos _ hpd]
      · rw [List.find?_cons_of_neg _ hpd, List.find?_cons_of_neg _ hpd, ih]

/-- `find?` sees through first-occurrence deduplication. -/
theorem find?_dedupF (p : Char → Bool) :
    ∀ (cs : List Char), (dedupF cs).find? p = cs.find? p := by
  intro cs
  induction cs using dedupF.induct with
  | case1 => rw [dedupF]
  | case2 c cs ih =>
    rw [dedupF]
    by_cases hpc : p c
    · rw [List.find?_cons_of_pos _ hpc, List.find?_cons_of_pos _ hpc]
    · rw [List.find?_cons_of_neg _ hpc, List.find?_cons_of_neg _ hpc, ih,
        find?_filter_ne p c (Bool.of_not_eq_true hpc)]

/-- `all` depends only on membership. -/
theorem all_congr_mem {l₁ l₂ : List Char} (h : ∀ x, x ∈ l₁ ↔ x ∈ l₂)
    (p : Char → Bool) : l₁.all p = l₂.all p := by
  rw [Bool.eq_iff_iff, List.all_eq_true, List.all_eq_true]
  constructor
  · intro ha x hx
    exact ha x ((h x).mpr hx)
  · intro ha x hx
    exact ha x ((h x).mp hx)

/-- `count` over a cons cell, with a propositional condition. -/
theorem count_cons_eq (x b : Char) (l : List Char) :
    (b :: l).count x = l.count x + if x = b then 1 else 0 := by
  rw [List.count_cons]
  by_cases h : x = b
  · simp [h]
  · have hbeq : (b == x) = false := beq_eq_false_iff_ne.mpr (Ne.symm h)
    simp [h, hbeq]

/-- The vote-accumulation fold in closed form: existing entries gain the
incoming occurrences of their key, and the new keys are appended in first
occurrence order with their occurrence counts. -/
theorem foldl_addVote (cs : List Char) :
    ∀ (acc : List (Char × Nat)),
      cs.foldl addVote acc =
        acc.map (fun p => (p.1, p.2 + cs.count p.1)) ++
          (dedupF (cs.filter (fun d => decide (d ∉ acc.map Prod.fst)))).map
            (fun d => (d, cs.count d)) := by
  induction cs with
  | nil =>
    intro acc
    simp [dedupF]
  | cons a cs ih =>
    intro acc
    rw [List.foldl_cons, ih (addVote acc a)]
    by_cases hmem : a ∈ acc.map Prod.fst
    · have haddv : addVote acc a =
          acc.map (fun p => if p.1 = a then (p.1, p.2 + 1) else p) := by
        unfold addVote
        rw [if_pos]
        rw [List.any_eq_true]
        obtain ⟨p, hp, hpa⟩ := List.mem_map.mp hmem
        exact ⟨p, hp, by simp [hpa]⟩
      have hkeys : (addVote acc a).map Prod.fst = acc.map Prod.fst := by
        rw [haddv, List.map_map]
        apply List.map_congr_left
        intro p _
        by_cases hpa : p.1 = a <;> simp [hpa]
      have hfirst : (addVote acc a).map (fun p => (p.1, p.2 + cs.count p.1)) =
          acc.map (fun p => (p.1, p.2 + (a :: cs).count p.1)) := by
        rw [haddv, List.map_map]
        apply List.map_congr_left
        intro p _
        by_cases hpa : p.1 = a
        · simp only [Function.comp_apply, if_pos hpa, count_cons_eq,
            if_pos hpa]
          refine Prod.ext rfl ?_
          show p.2 + 1 + cs.count p.1 = p.2 + (cs.count p.1 + 1)
          omega
        · simp only [Function.comp_apply, if_neg hpa, count_cons_eq,
            if_neg hpa]
          simp
      have hfilter : (a :: cs).filter
            (fun d => decide (d ∉ acc.map Prod.fst)) =
          cs.filter (fun d => decide (d ∉ acc.map Prod.fst)) := by
        rw [List.filter_cons_of_neg (by simpa using hmem)]
      rw [hkeys, hfirst, hfilter]
      congr 1
      apply List.map_congr_left
      intro d hd
      have hdne : d ≠ a := by
        intro hda
        have hdmem := mem_dedupF.mp hd
        have := (List.mem_filter.mp hdmem).2
        rw [hda] at this
        simp [hmem] at this
      rw [count_cons_eq, if_neg hdne]
      simp
    · have haddv : addVote acc a = acc ++ [(a, 1)] := by
        unfold addVote
        rw [if_neg]
        rw [List.any_eq_true]
        rintro ⟨p, hp, hpa⟩
        exact hmem (List.mem_map.mpr ⟨p, hp, by simpa using hpa⟩)
      have hkeys : (acc ++ [(a, 1)]).map Prod.fst = acc.map Prod.fst ++ [a] := by
        rw [List.map_append]
        rfl
      have hfilter2 : cs.filter
            (fun d => decide (d ∉ (addVote acc a).map Prod.fst)) =
          (cs.filter (fun d => decide (d ∉ acc.map Prod.fst))).filter
            (fun d => decide (d ≠ a)) := by
        rw [List.filter_filter]
        apply List.filter_congr
        intro d _
        rw [haddv, hkeys, Bool.eq_iff_iff]
        simp [List.mem_append, and_comm]
      have hfiltercons : (a :: cs).filter
            (fun d => decide (d ∉ acc.map Prod.fst)) =
          a :: cs.filter (fun d => decide (d ∉ acc.map Prod.fst)) := by
        rw [List.filter_cons_of_pos (by simpa using hmem)]
      have hacc : (acc.map (fun p => (p.1, p.2 + cs.count p.1)) :
            List (Char × Nat)) =
          acc.map (fun p => (p.1, p.2 + (a :: cs).count p.1)) := by
        apply List.map_congr_left
        intro p hp
        have hpa : p.1 ≠ a := fun h =>
          hmem (List.mem_map.mpr ⟨p, hp, h⟩)
        rw [count_cons_eq, if_neg hpa]
        simp
      have htail : ∀ (l : List Char), (∀ d ∈ l, d ≠ a) →
          l.map (fun d => (d, cs.count d)) =
            l.map (fun d => (d, (a :: cs).count d)) := by
        intro l hl
        apply List.map_congr_left
        intro d hd
        rw [count_cons_eq, if_neg (hl d hd)]
        simp
      rw [hfilter2, hfiltercons, dedupF]
      rw [haddv, List.map_append, List.map_cons, List.map_nil, List.map_cons]
      rw [← hacc, List.append_assoc, List.singleton_append]
      congr 1
      congr 1
      · refine Prod.ext rfl ?_
        show 1 + cs.count a = (a :: cs).count a
        rw [count_cons_eq, if_pos rfl]
        omega
      · apply htail
        intro d hd
        have := (List.mem_filter.mp (mem_dedupF.mp hd)).2
        simpa using this

/-- The tally of a character column: each distinct character, in first
occurrence order, with its occurrence count. -/
theorem tallyChars_eq (cs : List Char) :
    tallyChars cs = (dedupF cs).map (fun d => (d, cs.count d)) := by
  rw [tallyChars, foldl_addVote]
  simp

/-- The per-position vote tally is the column tally. -/
theorem tallyVotes_eq_tallyChars (loops : List (List Char)) (pos : Nat) :
    tallyVotes loops pos =
      tallyChars (loops.filterMap (fun loop => loop.get? pos)) := by
  rw [tallyVotes, tallyChars]
  suffices h : ∀ acc : List (Char × Nat),
      loops.foldl
        (fun votes loop =>
          match loop.get? pos with
          | some d => addVote votes d
          | none => votes) acc =
      (loops.filterMap (fun loop => loop.get? pos)).foldl addVote acc from
    h []
  induction loops with
  | nil => intro acc; rfl
  | cons l loops ih =>
    intro acc
    rw [List.foldl_cons, List.filterMap_cons]
    cases hl : l.get? pos with
    | none => rw [ih]
    | some d => rw [List.foldl_cons, ih]

/-- `find?` only depends on the predicate's values on the list. -/
theorem find?_congr_mem {α : Type} {l : List α} {p q : α → Bool}
    (h : ∀ x ∈ l, p x = q x) : l.find? p = l.find? q := by
  induction l with
  | nil => rfl
  | cons a l ih =>
    have ha := h a (List.mem_cons_self a l)
    by_cases hp : p a = true
    · rw [List.find?_cons_of_pos _ hp, List.find?_cons_of_pos _ (ha ▸ hp)]
    · rw [List.find?_cons_of_neg _ hp,
        List.find?_cons_of_neg _ (fun hq => hp (ha ▸ hq)),
        ih (fun x hx => h x (List.mem_cons_of_mem a hx))]

/-- `find?` on a cons cell whose head satisfies the predicate. -/
theorem find?_cons_pos {α : Type} (p : α → Bool) (a : α) (l : List α)
    (h : p a = true) : (a :: l).find? p = some a :=
  List.find?_cons_of_pos l h

/-- `find?` on a cons cell whose head fails the predicate. -/
theorem find?_cons_neg {α : Type} (p : α → Bool) (a : α) (l : List α)
    (h : p a = false) : (a :: l).find? p = l.find? p :=
  List.find?_cons_of_neg l (by simp [h])

/-- The winner-selection fold returns the first entry whose count is maximal
and exceeds the running best, or the running best if nothing exceeds it. -/
theorem foldl_best (votes : List (Char × Nat)) :
    ∀ b : String × Nat,
      votes.foldl
        (fun best p => if p.2 > best.2 then (String.singleton p.1, p.2)
         else best) b =
      (votes.find? (fun p => decide (b.2 < p.2) &&
          votes.all (fun q => decide (q.2 ≤ p.2)))).elim b
        (fun p => (String.singleton p.1, p.2)) := by
  induction votes with
  | nil => intro b; rfl
  | cons p rest ih =>
    intro b
    rw [List.foldl_cons]
    by_cases hbp : b.2 < p.2
    · have hstep : (if p.2 > b.2 then (String.singleton p.1, p.2) else b) =
          (String.singleton p.1, p.2) := if_pos hbp
      rw [hstep, ih]
      by_cases hall : rest.all (fun q => decide (q.2 ≤ p.2)) = true
      · have hnone : rest.find? (fun r =>
            decide ((String.singleton p.1, p.2).2 < r.2) &&
              rest.all (fun q => decide (q.2 ≤ r.2))) = none := by
          rw [List.find?_eq_none]
          intro r hr
          have hrle : r.2 ≤ p.2 := by
            simpa using List.all_eq_true.mp hall r hr
          simp only [Bool.and_eq_true, decide_eq_true_eq]
          rintro ⟨hlt, -⟩
          exact absurd hlt (by simp; omega)
        rw [hnone]
        have hpos : (fun q : Char × Nat => decide (b.2 < q.2) &&
            (p :: rest).all (fun q' => decide (q'.2 ≤ q.2))) p = true := by
          simp only [Bool.and_eq_true, decide_eq_true_eq, List.all_cons]
          exact ⟨hbp, by simp, hall⟩
        rw [find?_cons_pos
          (fun r : Char × Nat => decide (b.2 < r.2) &&
            (p :: rest).all fun q => decide (q.2 ≤ r.2)) p rest hpos]
        rfl
      · obtain ⟨q0, hq0, hq0gt⟩ : ∃ q0 ∈ rest, p.2 < q0.2 := by
          by_contra hcon
          push_neg at hcon
          exact hall (List.all_eq_true.mpr
            (fun q hq => by simpa using hcon q hq))
        have hneg : (fun q : Char × Nat => decide (b.2 < q.2) &&
            (p :: rest).all (fun q' => decide (q'.2 ≤ q.2))) p = false := by
          rw [Bool.eq_false_iff]
          intro hcon
          simp only [Bool.and_eq_true, List.all_cons, decide_eq_true_eq,
            List.all_eq_true] at hcon
          have := hcon.2.2 q0 hq0
          simp only [decide_eq_true_eq] at this
          omega
        rw [find?_cons_neg
          (fun r : Char × Nat => decide (b.2 < r.2) &&
            (p :: rest).all fun q => decide (q.2 ≤ r.2)) p rest hneg]
        have hcongr : ∀ r ∈ rest,
            (fun r => decide ((String.singleton p.1, p.2).2 < r.2) &&
              rest.all (fun q => decide (q.2 ≤ r.2))) r =
            (fun r => decide (b.2 < r.2) &&
              (p :: rest).all (fun q' => decide (q'.2 ≤ r.2))) r := by
          intro r _
          rw [Bool.eq_iff_iff]
          simp only [Bool.and_eq_true, List.all_cons, decide_eq_true_eq,
            List.all_eq_true]
          constructor
          · rintro ⟨h1, h2⟩
            refine ⟨by omega, by omega, h2⟩
          · rintro ⟨h1, h2, h3⟩
            have := h3 q0 hq0
            simp only [decide_eq_true_eq] at this
            exact ⟨by omega, h3⟩
        rw [find?_congr_mem hcongr]
        rcases hma : rest.argmax (fun q : Char × Nat => q.2) with _ | m
        · exact absurd (List.argmax_eq_none.mp hma)
            (List.ne_nil_of_mem hq0)
        · have hmmem : m ∈ rest := List.argmax_mem (by rw [Option.mem_def, hma])
          have hsome : (fun r : Char × Nat => decide (b.2 < r.2) &&
              (p :: rest).all (fun q' => decide (q'.2 ≤ r.2))) m = true := by
            have hple : p.2 < m.2 := lt_of_lt_of_le hq0gt
              (List.le_of_mem_argmax hq0 (by rw [Option.mem_def, hma]))
            simp only [Bool.and_eq_true, List.all_cons, decide_eq_true_eq,
              List.all_eq_true]
            refine ⟨by omega, by omega, fun q hq => ?_⟩
            simpa using List.le_of_mem_argmax hq (by rw [Option.mem_def, hma])
          rcases hfind : rest.find? (fun r : Char × Nat => decide (b.2 < r.2) &&
              (p :: rest).all (fun q' => decide (q'.2 ≤ r.2))) with _ | r
          · exact absurd hsome (by
              simpa using List.find?_eq_none.mp hfind m hmmem)
          · rfl
    · have hstep : (if p.2 > b.2 then (String.singleton p.1, p.2) else b) =
          b := if_neg hbp
      rw [hstep, ih]
      have hneg : (fun q : Char × Nat => decide (b.2 < q.2) &&
          (p :: rest).all (fun q' => decide (q'.2 ≤ q.2))) p = false := by
        rw [Bool.eq_false_iff]
        intro hcon
        simp only [Bool.and_eq_true, decide_eq_true_eq] at hcon
        exact hbp hcon.1
      rw [find?_cons_neg
        (fun r : Char × Nat => decide (b.2 < r.2) &&
          (p :: rest).all fun q => decide (q.2 ≤ r.2)) p rest hneg]
      have hcongr : ∀ r ∈ rest,
          (fun r => decide (b.2 < r.2) &&
            rest.all (fun q => decide (q.2 ≤ r.2))) r =
          (fun r => decide (b.2 < r.2) &&
            (p :: rest).all (fun q' => decide (q'.2 ≤ r.2))) r := by
        intro r _
        rw [Bool.eq_iff_iff]
        simp only [Bool.and_eq_true, List.all_cons, decide_eq_true_eq,
          List.all_eq_true]
        constructor
        · rintro ⟨h1, h2⟩
          exact ⟨h1, by omega, h2⟩
        · rintro ⟨h1, h2, h3⟩
          exact ⟨h1, h3⟩
      rw [find?_congr_mem hcongr]

lemma all_map_explicit {α β : Type} (l : List α) (f : α → β) (p : β → Bool) :
    (l.map f).all p = l.all (fun x => p (f x)) := by
  induction l with
  | nil => rfl
  | cons a t ih => simp only [List.map_cons, List.all_cons, ih]

/-- The implementation's winner over a column tally is the specification's
plurality winner: first occurrence among the maximal counts. -/
theorem bestVote_eq_pluralityWinner (cs : List Char) :
    bestVote (tallyChars cs) = pluralityWinner cs := by
  rw [bestVote, tallyChars_eq, foldl_best, List.find?_map]
  have hcongr : ∀ d ∈ dedupF cs,
      ((fun p : Char × Nat => decide ((("", 0) : String × Nat).2 < p.2) &&
        ((dedupF cs).map (fun d => (d, cs.count d))).all
          (fun q => decide (q.2 ≤ p.2))) ∘ (fun d => (d, cs.count d))) d =
      (fun c => cs.all (fun d' => decide (cs.count d' ≤ cs.count c))) d := by
    intro d hd
    simp only [Function.comp_apply]
    have hpos : 0 < cs.count d := List.count_pos_iff.mpr (mem_dedupF.mp hd)
    rw [all_map_explicit (dedupF cs) (fun d' => (d', cs.count d'))
      (fun q => decide (q.2 ≤ cs.count d))]
    rw [all_congr_mem (fun x => mem_dedupF)]
    have h1 : decide ((("", 0) : String × Nat).2 < ((d, cs.count d) :
        Char × Nat).2) = true := decide_eq_true hpos
    rw [h1, Bool.true_and]
  rw [find?_congr_mem hcongr, find?_dedupF]
  rw [pluralityWinner]
  rcases cs.find?
      (fun c => cs.all fun d => decide (cs.count d ≤ cs.count c)) with _ | w
  · rfl
  · rfl

/-- The per-position vote of the implementation equals the plurality winner
of the column the chunks carry at that position. -/
theorem bestVote_tallyVotes (loops : List (List Char)) (pos : Nat) :
    bestVote (tallyVotes loops pos) =
      pluralityWinner (loops.filterMap (fun loop => loop.get? pos)) := by
  rw [tallyVotes_eq_tallyChars, bestVote_eq_pluralityWinner]

lemma exists_image_max (f : Char → Nat) :
    ∀ (l : List Char), l ≠ [] → ∃ c ∈ l, ∀ d ∈ l, f d ≤ f c
  | [], h => absurd rfl h
  | [a], _ => ⟨a, List.mem_singleton_self a, fun d hd => by
      rw [List.mem_singleton] at hd; subst hd; exact le_refl _⟩
  | a :: b :: t, _ => by
      obtain ⟨c, hc, hmax⟩ := exists_image_max f (b :: t) (by simp)
      by_cases hac : f a ≤ f c
      · refine ⟨c, List.mem_cons_of_mem a hc, ?_⟩
        intro d hd
        rcases List.mem_cons.mp hd with h | h
        · subst h; exact hac
        · exact hmax d h
      · push_neg at hac
        refine ⟨a, List.mem_cons_self a (b :: t), ?_⟩
        intro d hd
        rcases List.mem_cons.mp hd with h | h
        · subst h; exact le_refl _
        · exact le_trans (hmax d h) (le_of_lt hac)

lemma pluralityWinner_length_one (col : List Char) (h : col ≠ []) :
    (pluralityWinner col).length = 1 := by
  obtain ⟨c, hc, hmax⟩ := exists_image_max (fun d => col.count d) col h
  have hfind : (col.find?
      (fun c => col.all (fun d => decide (col.count d ≤ col.count c)))).isSome := by
    rw [List.find?_isSome]
    refine ⟨c, hc, ?_⟩
    rw [List.all_eq_true]
    intro d hd
    exact decide_eq_true (hmax d hd)
  obtain ⟨w, hw⟩ := Option.isSome_iff_exists.mp hfind
  rw [pluralityWinner, hw]
  rfl

lemma columnAt_ne_nil (s : List Char) (L pos : Nat) (hpos : pos < L)
    (hlen : L ≤ s.length) : columnAt s L pos ≠ [] := by
  intro hnil
  rw [columnAt, List.filterMap_eq_nil_iff] at hnil
  obtain ⟨L', rfl⟩ : ∃ L', L = L' + 1 :=
    ⟨L - 1, (Nat.succ_pred_eq_of_pos (Nat.lt_of_le_of_lt (Nat.zero_le _) hpos)).symm⟩
  have hmem : s.take (L' + 1) ∈ chunkEvery s (L' + 1) := by
    show s.take (L' + 1) ∈
      (List.range' 0 ((s.length + L') / (L' + 1)) (L' + 1)).map
        (fun i => (s.drop i).take (L' + 1))
    have hn : 1 ≤ (s.length + L') / (L' + 1) :=
      (Nat.one_le_div_iff (Nat.succ_pos L')).mpr (by omega)
    obtain ⟨m, hm⟩ : ∃ m, (s.length + L') / (L' + 1) = m + 1 :=
      ⟨_, (Nat.succ_pred_eq_of_pos hn).symm⟩
    rw [hm, List.range'_succ]
    exact List.mem_map.mpr ⟨0, List.mem_cons_self _ _, by rw [List.drop_zero]⟩
  have hnone := hnil _ hmem
  rw [List.get?_eq_none] at hnone
  have hlt : pos < (s.take (L' + 1)).length := by
    rw [List.length_take]
    omega
  exact absurd hlt (not_lt.mpr hnone)

lemma length_foldl_append (ss : List String) :
    ∀ (init : String), (ss.foldl (fun r s => r ++ s) init).length =
      init.length + (ss.map String.length).sum := by
  induction ss with
  | nil => intro init; simp
  | cons a t ih =>
      intro init
      rw [List.foldl_cons, ih, String.length_append, List.map_cons, List.sum_cons]
      omega

lemma length_join_ones (ss : List String) (h : ∀ x ∈ ss, x.length = 1) :
    (String.join ss).length = ss.length := by
  show (ss.foldl (fun r s => r ++ s) "").length = ss.length
  rw [length_foldl_append]
  have h2 : ss.map String.length = ss.map (fun _ => (1 : Nat)) :=
    List.map_congr_left h
  rw [h2]
  simp

theorem cross_validate_eq_join (raw : String) (L : Nat)
    (hlt : L < raw.length) :
    cross_validate raw L = String.join ((List.range L).map
      (fun pos => pluralityWinner (columnAt raw.data L pos))) := by
  have hnle : ¬ raw.length ≤ L := not_le.mpr hlt
  rw [cross_validate, if_neg hnle]
  show String.join ((List.range L).map
      (fun pos => bestVote (tallyVotes (chunkEvery raw.data L) pos))) = _
  refine congrArg String.join (List.map_congr_left ?_)
  intro pos hpos
  rw [bestVote_tallyVotes, columnAt]

theorem cross_validate_length (raw : String) (L : Nat)
    (hlt : L < raw.length) : (cross_validate raw L).length = L := by
  rw [cross_validate_eq_join raw L hlt, length_join_ones]
  · simp
  · intro x hx
    obtain ⟨pos, hpos, rfl⟩ := List.mem_map.mp hx
    exact pluralityWinner_length_one _ (columnAt_ne_nil raw.data L pos
      (List.mem_range.mp hpos) (le_of_lt hlt))

/-- C6: for every concatenated raw reading string and every cycle length
`L > 0`, the cross-validation core of `read_digits_with_validation` returns
the raw string unchanged when its length is at most `L`; otherwise it
returns the length-`L` string whose character at each position `0..L-1` is
the plurality value among the chunks (the raw string split every `L`
characters, the final chunk possibly shorter) that carry a character at
that position, with ties broken by the first occurrence in chunk order; in
particular the three loops "3169", "3189", "3169" recover "3169". -/
theorem cross_validation_majority_vote :
    (∀ (raw : String) (L : Nat), 0 < L →
      (raw.length ≤ L → cross_validate raw L = raw) ∧
      (L < raw.length →
        (cross_validate raw L).length = L ∧
        cross_validate raw L = String.join ((List.range L).map
          (fun pos => pluralityWinner (columnAt raw.data L pos))))) ∧
    cross_validate (String.join ["3169", "3189", "3169"]) 4 = "3169" := by
  refine ⟨fun raw L hL => ⟨fun hle => ?_,
    fun hlt => ⟨cross_validate_length raw L hlt,
      cross_validate_eq_join raw L hlt⟩⟩, by decide⟩
  rw [cross_validate, if_pos hle]

/-- The cross-validation theorem applied at the concrete corrupted-loop
input from the specification, all hypotheses discharged by computation. -/
theorem cross_validation_majority_vote_witness :
    0 < 4 ∧ 4 < ("316931893169" : String).length ∧
      (cross_validate "316931893169" 4).length = 4 := by
  refine ⟨by decide, by decide, ?_⟩
  exact ((cross_validation_majority_vote.1 "316931893169" 4
    (by decide)).2 (by decide)).1

end TomCruise
